import Mathlib

/-!
# goiste/generics : a shallow embedding of `slices` and `sets`

The Go sources `slices/slices.go` and `sets/set.go` are embedded function by
function.

* A Go slice `[]T` is a `List α`; a function that only reads its arguments and
  returns a fresh slice is a pure function on lists.  Where a function writes
  through an argument (`slices.Intersect` sorts the variadic slice in place) the
  embedding returns the final contents of that argument next to the result.
* Go `int` is `Int` (unbounded: no claim below depends on wrap-around).  Float64
  arithmetic is modelled on whole numbers (`Float64Whole`): the exact result,
  rounded to the nearest float64.
* A run-time panic is an explicit `none` / `Outcome.fault`; a loop that Go does
  not bound is run with fuel and reports `Outcome.running` when it is used up.
* A closure is the record of its captured variables; invoking it returns a value
  and the updated record.
* A Go map is a reference to a hash table.  A `sets.Set[T]` value is the nil map
  or a reference (`Ref`) into a heap of tables, so that aliasing between the
  receiver and the arguments is part of the model; an assignment to an entry of
  the nil map is a panic, and so is a call of a nil func.
* The keys of a set are compared with Go's `==` (`Comparable`), which is
  symmetric and transitive but need not be reflexive: a float NaN is not equal
  to itself, and the two float zeros are equal.
-/

namespace slices

variable {α : Type}

/-! ## Definitions (slices/slices.go) -/

/-- Copy (slices.go 17-21): `make` a slice of the same length and `copy` into it. -/
def Copy (s : List α) : List α :=
  let result := s
  result

/-- RemoveValue (slices.go 25-33): append every `s[i] != value` to an empty result. -/
def RemoveValue [DecidableEq α] (s : List α) (value : α) : List α :=
  s.foldl (fun result x => if x ≠ value then result ++ [x] else result) []

/-- RemoveIdx (slices.go 37-43): out-of-range index returns `s`; otherwise the copy
    without position `index` (`append(result[:index], result[index+1:]...)`). -/
def RemoveIdx (s : List α) (index : Int) : List α :=
  if index < 0 ∨ index ≥ s.length then s
  else
    let result := Copy s
    result.take index.toNat ++ result.drop (index.toNat + 1)

/-- The loop of IndexOf (slices.go 54-58), at position `i` with `rest = s[i:]`. -/
def IndexOf.loop [DecidableEq α] (value : α) : List α → Nat → Int
  | [], _ => -1
  | x :: rest, i => if x = value then (i : Int) else IndexOf.loop value rest (i + 1)

/-- IndexOf (slices.go 53-60): first index holding `value`, or -1. -/
def IndexOf [DecidableEq α] (s : List α) (value : α) : Int :=
  IndexOf.loop value s 0

/-- HasValue (slices.go 47-49). -/
def HasValue [DecidableEq α] (s : List α) (value : α) : Bool :=
  IndexOf s value != -1

/-- The `map[T]struct{}` that `Diff` builds from `s` (slices.go 69-72): the keys
    written so far; a key is written once. -/
def valuesMapOf [DecidableEq α] (s : List α) : List α :=
  s.foldl (fun m x => if x ∈ m then m else m ++ [x]) []

/-- Diff (slices.go 64-84): with no others `s` itself; otherwise a copy of `s` from
    which every element of every other that is a key of `valuesMap` is removed by
    `RemoveValue`. -/
def Diff [DecidableEq α] (s : List α) (others : List (List α)) : List α :=
  if others.length = 0 then s
  else
    let valuesMap := valuesMapOf s
    let result := Copy s
    others.foldl
      (fun result o =>
        o.foldl (fun result x => if x ∈ valuesMap then RemoveValue result x else result) result)
      result

/-- Merge (slices.go 146-152): start from a copy of `s`; for each other append
    `Diff(others[i], result)`. -/
def Merge [DecidableEq α] (s : List α) (others : List (List α)) : List α :=
  others.foldl (fun result o => result ++ Diff o [result]) (Copy s)

/-- The loop of Filter (slices.go 193-199): `i` is the loop counter, `result` the
    working copy; a rejected element is removed with `RemoveIdx` and `i` stays. -/
def Filter.loop (f : α → Bool) (result : List α) (i : Nat) : List α :=
  if h : i < result.length then
    if !f (result.get ⟨i, h⟩) then Filter.loop f (RemoveIdx result (i : Int)) i
    else Filter.loop f result (i + 1)
  else result
termination_by result.length - i
decreasing_by
  · simp only [RemoveIdx, Copy]
    have h1 : ¬ ((i : Int) < 0 ∨ (i : Int) ≥ (result.length : Int)) := by omega
    rw [if_neg h1]
    simp only [List.length_append, List.length_take, List.length_drop, Int.toNat_ofNat]
    omega
  · omega

/-- Filter (slices.go 186-202): a nil predicate (`none`) returns `s`; otherwise the
    loop runs over a copy of `s` from `i = 0`. -/
def Filter (s : List α) (f : Option (α → Bool)) : List α :=
  match f with
  | none => s
  | some f =>
    let result := Copy s
    Filter.loop f result 0

/-- The contract of `sort.Slice(others, less)` with
    `less(i, j) = len(others[i]) < len(others[j])` (Go standard library, not part of
    the repository): the slice is permuted in place so that no later member is
    `less` than an earlier one.  The order among members of equal length is not
    fixed by Go (the sort is not stable), so it is left to the sorter. -/
structure SliceSorter (α : Type) where
  sort : List (List α) → List (List α)
  perm : ∀ l, (sort l).Perm l
  sorted : ∀ l, (sort l).Pairwise (fun a b => ¬ (b.length < a.length))

/-- The loop of Intersect (slices.go 102-107) over the (sorted) others. -/
def Intersect.loop [DecidableEq α] : List (List α) → List α → List α
  | [], result => result
  | o :: rest, result =>
    let result := Filter result (some (fun t => HasValue o t))
    if result.length = 0 then result else Intersect.loop rest result

/-- Intersect (slices.go 88-110).  The first component is the returned slice, the
    second the contents of the variadic slice `others` when the call returns
    (`sort.Slice` writes through it; a caller that passed `list...` sees that). -/
def Intersect [DecidableEq α] (srt : SliceSorter α) (s : List α) (others : List (List α)) :
    List α × List (List α) :=
  if others.length = 0 then ([], others)
  else
    let others := srt.sort others
    match others with
    | [] => ([], others) -- not reached: sorting keeps the length, which is not 0
    | o0 :: _ =>
      if o0.length = 0 then ([], others)
      else
        let result := Copy s
        (Intersect.loop others result, others)

/-- Insertion sort by length: what `sort.Slice` does on slices of at most 12
    members (Go runtime `insertionSortLessFunc`). -/
def insertionSorter (α : Type) : SliceSorter α where
  sort := List.insertionSort (fun a b => a.length ≤ b.length)
  perm := fun l => List.perm_insertionSort _ l
  sorted := fun l => by
    haveI : IsTotal (List α) (fun a b => a.length ≤ b.length) :=
      ⟨fun a b => Nat.le_total a.length b.length⟩
    haveI : IsTrans (List α) (fun a b => a.length ≤ b.length) :=
      ⟨fun _ _ _ hab hbc => Nat.le_trans hab hbc⟩
    have h := List.sorted_insertionSort (fun a b : List α => a.length ≤ b.length) l
    exact h.imp (fun hab => by omega)

/-- How a call ends: with a value, with a run-time panic, or still running when
    the fuel given to an unbounded loop is used up. -/
inductive Outcome (β : Type) where
  | value : β → Outcome β
  | fault : Outcome β
  | running : Outcome β
  deriving DecidableEq, Repr

/-- `int(math.Ceil(float64(a) / float64(b)))` for `b ≠ 0`, computed exactly: the
    float64 result is this value whenever the operands are below `2^53` in
    absolute value; the rounding of larger operands is not modelled. -/
def ceilDiv (a b : Int) : Int :=
  -(Int.fdiv (-a) b)

/-- SafeSlice (slices.go 114-120): `to` is clamped to `len(s)`, then
    `Copy(s[from:to])`.  The slice expression `s[from:to]` panics (`none`) unless
    `0 ≤ from ≤ to`. -/
def SafeSlice (s : List α) (frm upto : Int) : Option (List α) :=
  let upto := if upto > s.length then (s.length : Int) else upto
  if 0 ≤ frm ∧ frm ≤ upto then
    some (Copy ((s.drop frm.toNat).take (upto.toNat - frm.toNat)))
  else none

/-- The loop of Split (slices.go 137-139), `for i := 0; i < length; i++`, with
    `remaining = length - i` iterations still to run; `result[i] = SafeSlice(...)`
    writes position `i` of the preallocated `result`. -/
def Split.loop (s : List α) (partSize : Int) :
    Nat → Nat → List (List α) → Option (List (List α))
  | 0, _, result => some result
  | remaining + 1, i, result =>
    match SafeSlice s ((i : Int) * partSize) (((i : Int) + 1) * partSize) with
    | none => none
    | some part => Split.loop s partSize remaining (i + 1) (result.set i part)

/-- Split (slices.go 124-142).  `none` is a run-time panic (of `make` or of a slice
    expression inside `SafeSlice`). -/
def Split (s : List α) (partSize : Int) : Option (List (List α)) :=
  if partSize ≤ 0 ∨ s.length = 0 then some []
  else
    if (s.length : Int) ≤ partSize then
      match SafeSlice s 0 s.length with
      | none => none
      | some part => some [part]
    else
      let length := ceilDiv s.length partSize
      if length < 0 then none
      else
        let result : List (List α) := List.replicate length.toNat []
        Split.loop s partSize length.toNat 0 result

/-- The loop of Range (slices.go 314-316): `for i := start; end(i); i += step`. -/
def Range.loop (endf : Int → Bool) (step : Int) : Nat → Int → List Int → Option (List Int)
  | 0, _, _ => none
  | fuel + 1, i, result =>
    if endf i then Range.loop endf step fuel (i + step) (result ++ [i]) else some result

/-- Range (slices.go 302-319) at `T = int`.  `make([]T, 0, n)` panics when the
    capacity `n` is negative. -/
def Range (fuel : Nat) (start stop step : Int) : Outcome (List Int) :=
  if step = 0 ∨ start = stop ∨ (start > stop ∧ step > 0) then Outcome.value []
  else
    if ceilDiv (stop - start) step < 0 then Outcome.fault
    else
      let result : List Int := []
      let endf : Int → Bool :=
        if start > stop then (fun i => decide (i > stop)) else (fun i => decide (i < stop))
      match Range.loop endf step fuel start result with
      | some r => Outcome.value r
      | none => Outcome.running

/-- Unique (slices.go 156-167): the loop carries `result` and the keys of the map
    `tmp`; a value already in `tmp` is skipped, a new one is appended to `result`
    and written to `tmp` (a map write adds the key when it is absent). -/
def Unique [DecidableEq α] (s : List α) : List α :=
  let result : List α := []
  let tmp : List α := []
  (s.foldl
    (fun (st : List α × List α) x =>
      if x ∈ st.2 then st else (st.1 ++ [x], if x ∈ st.2 then st.2 else st.2 ++ [x]))
    (result, tmp)).1

/-- The index expression `s[i]`: a panic (`none`) outside `0 ≤ i < len(s)`. -/
def index (s : List α) (i : Int) : Option α :=
  if 0 ≤ i then s[i.toNat]? else none

/-- The loop of Reverse (slices.go 274-276):
    `for i, j := 0, len(result)-1; i < j; i, j = i+1, j-1`, swapping
    `result[i]` and `result[j]`. -/
def Reverse.loop (result : List α) (i j : Int) : Option (List α) :=
  if i < j then
    match index result j, index result i with
    | some rj, some ri =>
      Reverse.loop ((result.set i.toNat rj).set j.toNat ri) (i + 1) (j - 1)
    | _, _ => none
  else some result
termination_by (j - i).toNat
decreasing_by omega

/-- Reverse (slices.go 272-278); `none` would be an index panic. -/
def Reverse (s : List α) : Option (List α) :=
  let result := Copy s
  Reverse.loop result 0 ((result.length : Int) - 1)

/-- The closure that SequenceGenerator returns: its captured variables `start`
    (written by every call) and `step`. -/
structure Producer (R : Type) where
  start : R
  step : R

/-- SequenceGenerator (slices.go 323-330): `start -= step`, then the closure. -/
def SequenceGenerator {R : Type} [Add R] [Sub R] (start step : R) : Producer R :=
  let start := start - step
  { start := start, step := step }

/-- One invocation of the closure (slices.go 325-329): the returned value and the
    closure with its `start` advanced. -/
def Producer.call {R : Type} [Add R] (p : Producer R) : R × Producer R :=
  let result := p.start + p.step
  let start := p.start + p.step
  (result, { p with start := start })

/-- A run of a program that holds several producers and invokes them in the
    order `calls` (each entry names the producer invoked): the values returned,
    in order. -/
def runCalls {R : Type} [Add R] (ps : Nat → Producer R) : List Nat → List R
  | [] => []
  | p :: rest =>
    let r := (ps p).call
    r.1 :: runCalls (Function.update ps p r.2) rest

/-- The number of low bits of `m` that do not fit into the 53-bit significand of
    a float64; the fuel bounds the exponent range. -/
def float64Shift : Nat → Nat → Nat
  | 0, _ => 0
  | fuel + 1, m => if m < 2 ^ 53 then 0 else float64Shift fuel (m / 2) + 1

/-- The float64 nearest to the natural number `m`, a tie going to the even
    significand: the rounding of Go's float64 arithmetic (IEEE 754).  For
    `m < 2 ^ 1024`, where the result is finite. -/
def roundNatToFloat64 (m : Nat) : Nat :=
  let e := float64Shift 1024 m
  let q := m / 2 ^ e
  let r := m % 2 ^ e
  if 2 * r < 2 ^ e ∨ (2 * r = 2 ^ e ∧ q % 2 = 0) then q * 2 ^ e else (q + 1) * 2 ^ e

/-- The float64 nearest to the whole number `n`. -/
def roundToFloat64 (n : Int) : Int :=
  if n < 0 then -((roundNatToFloat64 n.natAbs : Nat) : Int)
  else ((roundNatToFloat64 n.natAbs : Nat) : Int)

/-- A float64 whose value is a whole number.  Sums and differences of whole
    numbers are whole, so `+` and `-` stay within these values: the exact result,
    rounded to float64. -/
structure Float64Whole where
  val : Int
  deriving DecidableEq, Repr

instance instAddFloat64Whole : Add Float64Whole :=
  ⟨fun a b => ⟨roundToFloat64 (a.val + b.val)⟩⟩

instance instSubFloat64Whole : Sub Float64Whole :=
  ⟨fun a b => ⟨roundToFloat64 (a.val - b.val)⟩⟩

/-- The left fold of claim C16, written from the claim's words: `r0 = s` and
    `r(i) = r(i-1) ++ [x in o(i), in o(i)'s order, such that x does not occur in
    r(i-1)]`. -/
def MergeFold [DecidableEq α] (s : List α) (others : List (List α)) : List α :=
  others.foldl (fun r o => r ++ o.filter (fun x => decide (x ∉ r))) s

/-- Min (slices.go 232-243) over a linearly ordered numeric kind: the zero value
    on an empty slice; otherwise `result` starts at `s[0]` and takes every
    `s[i] < result`. -/
def Min {R : Type} [LinearOrder R] [Zero R] (s : List R) : R :=
  match s with
  | [] => 0
  | s0 :: _ =>
    let result := s0
    s.foldl (fun result x => if x < result then x else result) result

/-- Max (slices.go 247-258): as `Min`, taking every `s[i] > result`. -/
def Max {R : Type} [LinearOrder R] [Zero R] (s : List R) : R :=
  match s with
  | [] => 0
  | s0 :: _ =>
    let result := s0
    s.foldl (fun result x => if x > result then x else result) result

/-- The calls `SafeSlice(s, from, to)` that `Split` (slices.go 124-142) makes, as
    pairs `(from, to)` in the order of the calls, along the same branches as
    `Split`: none on the guard, one call `(0, len(s))` when `len(s) <= partSize`,
    else the call `(i*partSize, (i+1)*partSize)` for each `i < length`. -/
def Split.calls (s : List α) (partSize : Int) : List (Int × Int) :=
  if partSize ≤ 0 ∨ s.length = 0 then []
  else
    if (s.length : Int) ≤ partSize then [((0 : Int), (s.length : Int))]
    else
      let length := ceilDiv s.length partSize
      (List.range length.toNat).map
        (fun (i : Nat) => ((i : Int) * partSize, ((i : Int) + 1) * partSize))

end slices

namespace sets

variable {α : Type}

/-! ## Definitions (sets/set.go) -/

/-- Go's `==` on a `comparable` key type: symmetric and transitive, but not
    necessarily reflexive (a float NaN is not equal to itself), and not
    necessarily identity (the float zeros `+0` and `-0` are equal). -/
class Comparable (α : Type) where
  eq : α → α → Bool
  symm : ∀ a b, eq a b = true → eq b a = true
  trans : ∀ a b c, eq a b = true → eq b c = true → eq a c = true

/-- The `==` of a kind on which it is identity (integers, strings, booleans). -/
def Comparable.ofDecidableEq (α : Type) [DecidableEq α] : Comparable α where
  eq a b := decide (a = b)
  symm := by
    intro a b h
    simp only [decide_eq_true_eq] at h ⊢
    exact h.symm
  trans := by
    intro a b c h1 h2
    simp only [decide_eq_true_eq] at h1 h2 ⊢
    exact h1.trans h2

instance instComparableNat : Comparable Nat := Comparable.ofDecidableEq Nat

instance instComparableInt : Comparable Int := Comparable.ofDecidableEq Int

/-- The float64 values that are NaN, the negative zero or a whole number
    (`whole 0` is the positive zero). -/
inductive Float64Key where
  | nan : Float64Key
  | negZero : Float64Key
  | whole : Int → Float64Key
  deriving DecidableEq, Repr

/-- The number a float64 value stands for: none for NaN, 0 for both zeros. -/
def Float64Key.number : Float64Key → Option Int
  | Float64Key.nan => none
  | Float64Key.negZero => some 0
  | Float64Key.whole n => some n

/-- Go's `==` on float64: NaN is equal to nothing, itself included; the two zeros
    are equal. -/
def Float64Key.eq (a b : Float64Key) : Bool :=
  match a.number, b.number with
  | some x, some y => decide (x = y)
  | _, _ => false

instance instComparableFloat64Key : Comparable Float64Key where
  eq := Float64Key.eq
  symm := by
    intro a b h
    unfold Float64Key.eq at h ⊢
    cases ha : a.number <;> cases hb : b.number <;> simp_all
  trans := by
    intro a b c h1 h2
    unfold Float64Key.eq at h1 h2 ⊢
    cases ha : a.number <;> cases hb : b.number <;> cases hc : c.number <;> simp_all

/-- The hash table behind a `map[T]struct{}`: its keys in the order in which the
    table happens to hold them; no two entries hold equal keys (an entry whose
    key is not equal to itself, a NaN, is equal to no entry). -/
structure Table (α : Type) [Comparable α] where
  keys : List α
  distinct : keys.Pairwise (fun a b => Comparable.eq a b = false)

/-- The table of `make(Set[T])`. -/
def Table.empty [Comparable α] : Table α :=
  ⟨[], List.Pairwise.nil⟩

/-- `_, e := s[value]`: some entry holds a key equal to `value`. -/
def Table.has [Comparable α] (t : Table α) (value : α) : Bool :=
  t.keys.any (fun k => Comparable.eq k value)

/-- `s[v] = struct{}{}`: when an entry holds a key equal to `v` that entry is kept
    (Go stores `v` as its key), otherwise a new entry is added. -/
def Table.put [Comparable α] (t : Table α) (v : α) : Table α :=
  if h : t.has v = true then
    ⟨t.keys.map (fun k => if Comparable.eq k v = true then v else k), by
      refine List.Pairwise.map _ ?_ t.distinct
      intro a b hab
      by_cases ha : Comparable.eq a v = true
      · by_cases hb : Comparable.eq b v = true
        · have : Comparable.eq a b = true :=
            Comparable.trans a v b ha (Comparable.symm b v hb)
          rw [this] at hab
          cases hab
        · simp only [if_pos ha, if_neg hb]
          cases hvb : Comparable.eq v b with
          | false => rfl
          | true => exact absurd (Comparable.symm v b hvb) hb
      · by_cases hb : Comparable.eq b v = true
        · simp only [if_neg ha, if_pos hb]
          simpa using ha
        · simp only [if_neg ha, if_neg hb]
          exact hab⟩
  else
    ⟨t.keys ++ [v], by
      refine List.pairwise_append.mpr ⟨t.distinct, List.pairwise_singleton _ _, ?_⟩
      intro a ha b hb
      rw [List.mem_singleton] at hb
      subst hb
      cases hab : Comparable.eq a b with
      | false => rfl
      | true =>
        exfalso
        apply h
        unfold Table.has
        exact List.any_eq_true.mpr ⟨a, ha, hab⟩⟩

/-- `delete(s, v)`: the entry whose key is equal to `v`, if any, is removed. -/
def Table.remove [Comparable α] (t : Table α) (v : α) : Table α :=
  ⟨t.keys.filter (fun k => !Comparable.eq k v), t.distinct.filter _⟩

/-- A reference to a table. -/
abbrev Ref := Nat

/-- A value of type `Set[T]`: the nil map (`none`) or a reference to a table.  Go
    maps are references, so two `Set[T]` values may denote one table. -/
abbrev SetVal := Option Ref

/-- The tables that exist, by reference, and the next reference `make` hands out. -/
structure Heap (α : Type) [Comparable α] where
  table : Ref → Table α
  next : Ref

/-- Replace the table behind `r`. -/
def Heap.write [Comparable α] (h : Heap α) (r : Ref) (t : Table α) : Heap α :=
  { h with table := Function.update h.table r t }

/-- The keys a `Set[T]` value holds: none for the nil map. -/
def Heap.keysOf [Comparable α] (h : Heap α) (s : SetVal) : List α :=
  match s with
  | none => []
  | some r => (h.table r).keys

/-- The order in which `range` visits the keys of a map is not fixed by Go: any
    rearrangement of the keys may come out. -/
structure IterOrder (α : Type) where
  order : List α → List α
  perm : ∀ l, (order l).Perm l

/-- The assignment `s[v] = struct{}{}`: a panic (`none`) on the nil map. -/
def assign [Comparable α] (h : Heap α) (s : SetVal) (v : α) : Option (Heap α) :=
  match s with
  | none => none
  | some r => some (h.write r ((h.table r).put v))

/-- The loop of Add (set.go 17-19): it stops at the first assignment that panics. -/
def Add.loop [Comparable α] (s : SetVal) : List α → Heap α → Option (Heap α)
  | [], h => some h
  | v :: rest, h =>
    match assign h s v with
    | none => none
    | some h => Add.loop s rest h

/-- Add (set.go 16-20); `none` is the panic of an assignment to the nil map. -/
def Add [Comparable α] (h : Heap α) (s : SetVal) (values : List α) : Option (Heap α) :=
  Add.loop s values h

/-- Make (set.go 8-12): `make` a fresh table, then `Add`; returns the heap and the
    new set. -/
def Make [Comparable α] (h : Heap α) (values : List α) : Option (Heap α × SetVal) :=
  let s : SetVal := some h.next
  let h : Heap α := { table := Function.update h.table h.next Table.empty, next := h.next + 1 }
  match Add h s values with
  | none => none
  | some h => some (h, s)

/-- Delete (set.go 24-28); `delete` on the nil map does nothing. -/
def Delete [Comparable α] (h : Heap α) (s : SetVal) (values : List α) : Heap α :=
  values.foldl
    (fun h v =>
      match s with
      | none => h
      | some r => h.write r ((h.table r).remove v))
    h

/-- Truncate (set.go 32-34), pointer receiver: `*s = Make[T]()`.  Returns the heap
    and the new value of the variable `*s`; the table `*s` denoted before is left
    as it was. -/
def Truncate [Comparable α] (h : Heap α) (_s : SetVal) : Option (Heap α × SetVal) :=
  Make h []

/-- Has (set.go 38-41); reading the nil map finds nothing. -/
def Has [Comparable α] (h : Heap α) (s : SetVal) (value : α) : Bool :=
  match s with
  | none => false
  | some r => (h.table r).has value

/-- Len (set.go 45-47); the nil map has length 0. -/
def Len [Comparable α] (h : Heap α) (s : SetVal) : Nat :=
  (h.keysOf s).length

/-- Values (set.go 51-57): the keys in the order `range` delivers them. -/
def Values [Comparable α] (it : IterOrder α) (h : Heap α) (s : SetVal) : List α :=
  (it.order (h.keysOf s)).foldl (fun values v => values ++ [v]) []

/-- The loop of Merge (set.go 62-64): it stops at the first `Add` that panics. -/
def Merge.loop [Comparable α] (it : IterOrder α) (s : SetVal) :
    List SetVal → Heap α → Option (Heap α)
  | [], h => some h
  | o :: rest, h =>
    match Add h s (Values it h o) with
    | none => none
    | some h => Merge.loop it s rest h

/-- Merge (set.go 61-65). -/
def Merge [Comparable α] (it : IterOrder α) (h : Heap α) (s : SetVal)
    (others : List SetVal) : Option (Heap α) :=
  Merge.loop it s others h

/-- Diff (set.go 69-81): `others[0]` absorbs `others[1:]`, then every value of `s`
    that `others[0]` has is deleted from `s`. -/
def Diff [Comparable α] (it : IterOrder α) (h : Heap α) (s : SetVal)
    (others : List SetVal) : Option (Heap α) :=
  match others with
  | [] => some h
  | o0 :: rest =>
    match Merge it h o0 rest with
    | none => none
    | some h =>
      some ((Values it h s).foldl (fun h v => if Has h o0 v then Delete h s [v] else h) h)

/-- Intersect (set.go 85-98), pointer receiver: returns the heap and the value of
    the variable `*s` after the call. -/
def Intersect [Comparable α] (it : IterOrder α) (h : Heap α) (s : SetVal)
    (others : List SetVal) : Option (Heap α × SetVal) :=
  if others.length = 0 then Truncate h s
  else
    some ((Values it h s).foldl
      (fun h v => others.foldl (fun h o => if !Has h o v then Delete h s [v] else h) h) h, s)

/-- The loop of Equals (set.go 107-111): `false` at the first value `other` lacks. -/
def Equals.loop [Comparable α] (h : Heap α) (other : SetVal) : List α → Bool
  | [] => true
  | v :: rest => if !Has h other v then false else Equals.loop h other rest

/-- Equals (set.go 102-114). -/
def Equals [Comparable α] (it : IterOrder α) (h : Heap α) (s other : SetVal) : Bool :=
  if Len h s ≠ Len h other then false
  else Equals.loop h other (Values it h s)

/-- The loop of Filter (set.go 119-123); a call of the nil func (`f = none`) is a
    panic. -/
def Filter.loop [Comparable α] (s : SetVal) (f : Option (α → Bool)) :
    List α → Heap α → Option (Heap α)
  | [], h => some h
  | v :: rest, h =>
    match f with
    | none => none
    | some g => Filter.loop s f rest (if !g v then Delete h s [v] else h)

/-- Filter (set.go 118-124). -/
def Filter [Comparable α] (it : IterOrder α) (h : Heap α) (s : SetVal)
    (f : Option (α → Bool)) : Option (Heap α) :=
  Filter.loop s f (Values it h s) h

/-- The loop of Map (set.go 130-132): `values = append(values, f(v))`; a call of
    the nil func (`f = none`) is a panic. -/
def Map.loop (f : Option (α → α)) : List α → List α → Option (List α)
  | [], values => some values
  | v :: rest, values =>
    match f with
    | none => none
    | some g => Map.loop f rest (values ++ [g v])

/-- Map (set.go 128-135), pointer receiver: returns the heap and the value of the
    variable `*s` after the call. -/
def Map [Comparable α] (it : IterOrder α) (h : Heap α) (s : SetVal)
    (f : Option (α → α)) : Option (Heap α × SetVal) :=
  match Map.loop f (Values it h s) [] with
  | none => none
  | some values =>
    match Truncate h s with
    | none => none
    | some (h, s) =>
      match Add h s values with
      | none => none
      | some h => some (h, s)

/-- Copy (set.go 139-143). -/
def Copy [Comparable α] (it : IterOrder α) (h : Heap α) (s : SetVal) :
    Option (Heap α × SetVal) :=
  match Make h [] with
  | none => none
  | some (h1, newSet) =>
    match Add h1 newSet (Values it h1 s) with
    | none => none
    | some h2 => some (h2, newSet)

/-- The heap before any set is made. -/
def Heap.init [Comparable α] : Heap α :=
  { table := fun _ => Table.empty, next := 0 }

/-- The table holding the given values, written one after the other. -/
def Table.ofList [Comparable α] (l : List α) : Table α :=
  l.foldl Table.put Table.empty

/-- The heap whose tables 0, 1, 2, ... hold the given lists of values. -/
def Heap.ofLists [Comparable α] (ls : List (List α)) : Heap α :=
  { table := fun r => Table.ofList (ls.getD r []), next := ls.length }

/-- The iteration order that visits the keys as the table holds them. -/
def IterOrder.asStored (α : Type) : IterOrder α :=
  { order := fun l => l, perm := fun l => List.Perm.refl l }

/-- The iteration order that visits the keys backwards. -/
def IterOrder.backwards (α : Type) : IterOrder α :=
  { order := fun l => l.reverse, perm := fun l => List.reverse_perm l }

/-- The sets of TestSet_Diff: reference 0 is `Make(1, 2, 3, 4, 5)`, reference 1 is
    `{4}` and reference 2 is `{5}`. -/
def diffTestHeap : Heap Nat :=
  Heap.ofLists [[1, 2, 3, 4, 5], [4], [5]]

/-- The sets of TestSet_Intersect: reference 0 is `Make(1, 2, 3, 4, 5)`, reference
    1 is `Make(1, 2, 3, 4)` and reference 2 is `Make(1, 2, 3, 5)`. -/
def intersectTestHeap : Heap Nat :=
  Heap.ofLists [[1, 2, 3, 4, 5], [1, 2, 3, 4], [1, 2, 3, 5]]

/-- Float64 sets: reference 0 is `Make(math.NaN())`, reference 1 is
    `Make(math.NaN(), 1)`, reference 2 is `Make(0)` with the positive zero, and
    reference 3 is `Make(1)`. -/
def floatTestHeap : Heap Float64Key :=
  Heap.ofLists
    [[Float64Key.nan], [Float64Key.nan, Float64Key.whole 1], [Float64Key.whole 0],
      [Float64Key.whole 1]]

/-- The set of TestSet_Map: reference 0 is `Make(1, 2, 3)`. -/
def mapTestHeap : Heap Nat :=
  Heap.ofLists [[1, 2, 3]]

/-- The transform
    `func(x float64) float64 { if x == 0 && math.Signbit(x) { return 7 }; return 1 }`:
    it tells the negative zero from the positive zero. -/
def zeroSignTransform : Float64Key → Float64Key
  | Float64Key.negZero => Float64Key.whole 7
  | _ => Float64Key.whole 1

end sets

namespace slices

variable {α : Type}

/-! ## Theorems (slices/slices.go) -/

/-! ### Helper lemmas -/

/-- A loop that tests `i < stop` and steps by a non-positive amount never ends
    once it has started below `stop`. -/
theorem Range.loop_lt_nonpos_step (stop step : Int) (hstep : step ≤ 0) :
    ∀ (fuel : Nat) (i : Int) (result : List Int), i < stop →
      Range.loop (fun i => decide (i < stop)) step fuel i result = none := by
  intro fuel
  induction fuel with
  | zero => intro i result _; rfl
  | succ n ih =>
    intro i result hi
    simp only [Range.loop, decide_eq_true_eq, if_pos hi]
    exact ih (i + step) (result ++ [i]) (by omega)

/-- Any sorter puts the shorter of two members first. -/
theorem SliceSorter.sort_pair (srt : SliceSorter α) (x y : List α)
    (h : y.length < x.length) : srt.sort [x, y] = [y, x] := by
  have hp := srt.perm [x, y]
  have hs := srt.sorted [x, y]
  generalize srt.sort [x, y] = L at hp hs
  have hlen : L.length = 2 := by simpa using hp.length_eq
  match L, hlen with
  | [a, b], _ =>
    have hx : x ∈ [a, b] := hp.mem_iff.mpr (by simp)
    have hy : y ∈ [a, b] := hp.mem_iff.mpr (by simp)
    have hab : ¬ (b.length < a.length) := by
      simpa using hs
    simp only [List.mem_cons, List.mem_singleton, List.not_mem_nil, or_false] at hx hy
    rcases hx with hx | hx <;> rcases hy with hy | hy
    · subst hx; subst hy; omega
    · subst hx; subst hy; omega
    · subst hx; subst hy; rfl
    · subst hx; subst hy; omega

/-- RemoveIdx at the position right after a prefix `l₁` drops the element there. -/
theorem RemoveIdx_append_cons (l₁ : List α) (x : α) (l₂ : List α) :
    RemoveIdx (l₁ ++ x :: l₂) (l₁.length : Int) = l₁ ++ l₂ := by
  have hlen : (l₁ ++ x :: l₂).length = l₁.length + l₂.length + 1 := by simp; omega
  have h1 : ¬ ((l₁.length : Int) < 0 ∨ (l₁.length : Int) ≥ ((l₁ ++ x :: l₂).length : Int)) := by
    omega
  simp only [RemoveIdx, Copy, if_neg h1, Int.toNat_ofNat]
  rw [List.take_left, List.drop_append]
  rfl

/-- The loop of Filter, started right after a prefix it has already accepted,
    keeps the prefix and filters the rest. -/
theorem Filter.loop_append (f : α → Bool) :
    ∀ (l₂ l₁ : List α), Filter.loop f (l₁ ++ l₂) l₁.length = l₁ ++ l₂.filter f := by
  intro l₂
  induction l₂ with
  | nil =>
    intro l₁
    rw [Filter.loop]
    simp
  | cons x r ih =>
    intro l₁
    rw [Filter.loop]
    have hlt : l₁.length < (l₁ ++ x :: r).length := by simp
    rw [dif_pos hlt]
    have hget : (l₁ ++ x :: r).get ⟨l₁.length, hlt⟩ = x := by
      simp [List.getElem_append_right]
    rw [hget]
    cases hfx : f x with
    | false =>
      simp only [Bool.not_false, if_true]
      rw [RemoveIdx_append_cons, ih l₁, List.filter_cons_of_neg (by simp [hfx])]
    | true =>
      simp only [Bool.not_true, Bool.false_eq_true, if_false]
      have h2 := ih (l₁ ++ [x])
      simp only [List.append_assoc, List.singleton_append, List.length_append,
        List.length_singleton] at h2
      rw [h2, List.filter_cons_of_pos hfx]

/-- Filter with a predicate computes `List.filter`. -/
theorem Filter_some (s : List α) (f : α → Bool) : Filter s (some f) = s.filter f := by
  have h := Filter.loop_append f s []
  simpa [Filter, Copy] using h

/-- For a positive divisor `ceilDiv a b` is the least `n` with `a ≤ n * b`. -/
theorem ceilDiv_bounds (a b : Int) (hb : 0 < b) :
    (ceilDiv a b - 1) * b < a ∧ a ≤ ceilDiv a b * b := by
  unfold ceilDiv
  rw [Int.fdiv_eq_ediv _ (le_of_lt hb)]
  have h1 := Int.ediv_mul_le (-a) (ne_of_gt hb)
  have h2 := Int.lt_ediv_add_one_mul_self (-a) hb
  constructor <;> nlinarith

/-- For a positive divisor `ceilDiv` is the ceiling of the exact quotient. -/
theorem ceilDiv_eq_ceil (a b : Int) (hb : 0 < b) :
    ceilDiv a b = ⌈(a : ℚ) / (b : ℚ)⌉ := by
  obtain ⟨h1, h2⟩ := ceilDiv_bounds a b hb
  have hbq : (0 : ℚ) < (b : ℚ) := by exact_mod_cast hb
  symm
  rw [Int.ceil_eq_iff]
  constructor
  · rw [lt_div_iff₀ hbq]
    exact_mod_cast h1
  · rw [div_le_iff₀ hbq]
    exact_mod_cast h2

/-- The `j`-th call of `SafeSlice` made by `Split` returns the `j`-th block of
    `p` elements (shorter at the end of `s`). -/
theorem SafeSlice_chunk (s : List α) (p j : Nat) (h : j * p ≤ s.length) :
    SafeSlice s ((j : Int) * (p : Int)) (((j : Int) + 1) * (p : Int))
      = some ((s.drop (j * p)).take p) := by
  have e1 : (j : Int) * (p : Int) = ((j * p : Nat) : Int) := by push_cast; ring
  have e2 : ((j : Int) + 1) * (p : Int) = ((j * p + p : Nat) : Int) := by push_cast; ring
  rw [e1, e2]
  generalize j * p = m at h
  unfold SafeSlice Copy
  by_cases hc : ((m + p : Nat) : Int) > (s.length : Int)
  · simp only [if_pos hc]
    have hcond : (0 : Int) ≤ (m : Int) ∧ (m : Int) ≤ (s.length : Int) := by omega
    rw [if_pos hcond]
    simp only [Int.toNat_ofNat]
    rw [List.take_of_length_le (by simp only [List.length_drop]; omega),
      List.take_of_length_le (by simp only [List.length_drop]; omega)]
  · simp only [if_neg hc]
    have hcond : (0 : Int) ≤ (m : Int) ∧ (m : Int) ≤ ((m + p : Nat) : Int) := by omega
    rw [if_pos hcond]
    simp only [Int.toNat_ofNat]
    congr 2
    omega

/-- The loop of `Split`, entered at `i` with the first `i` positions of `result`
    written and `n` positions still empty, fills them with blocks `i .. i+n-1`. -/
theorem Split.loop_spec (s : List α) (p : Nat) :
    ∀ (n i : Nat) (pre : List (List α)), pre.length = i →
      (∀ j, j < i + n → j * p ≤ s.length) →
      Split.loop s (p : Int) n i (pre ++ List.replicate n [])
        = some (pre ++ (List.range' i n).map (fun j => (s.drop (j * p)).take p)) := by
  intro n
  induction n with
  | zero => intro i pre _ _; simp [Split.loop]
  | succ n ih =>
    intro i pre hpre hj
    rw [Split.loop, SafeSlice_chunk s p i (hj i (by omega))]
    simp only
    have hset : (pre ++ List.replicate (n + 1) ([] : List α)).set i ((s.drop (i * p)).take p)
        = (pre ++ [(s.drop (i * p)).take p]) ++ List.replicate n [] := by
      rw [List.set_append_right _ _ (by omega), hpre, Nat.sub_self, List.replicate_succ,
        List.set_cons_zero]
      simp
    rw [hset, ih (i + 1) (pre ++ [(s.drop (i * p)).take p]) (by simp [hpre])
      (fun j hlt => hj j (by omega))]
    simp [List.range'_succ]

/-- Consecutive blocks put back together give the stretch of `s` they cover. -/
theorem flatten_chunks (s : List α) (p : Nat) :
    ∀ (n i : Nat), ((List.range' i n).map (fun j => (s.drop (j * p)).take p)).flatten
      = (s.drop (i * p)).take (n * p) := by
  intro n
  induction n with
  | zero => intro i; simp
  | succ n ih =>
    intro i
    rw [List.range'_succ, List.map_cons, List.flatten_cons, ih (i + 1)]
    have e : (n + 1) * p = p + n * p := by ring
    rw [e, List.take_add, List.drop_drop]
    congr 3
    ring

/-- On a non-empty `s` and a positive `partSize = p`, `Split` returns blocks
    `0 .. n-1` of `p` elements, where `n = ceilDiv len(s) p` is the least `n` with
    `len(s) ≤ n * p`. -/
theorem Split_eq_chunks (s : List α) (p : Nat) (hp : 0 < p) (hs : s ≠ []) :
    ∃ n : Nat, 0 < n ∧ (n - 1) * p < s.length ∧ s.length ≤ n * p
      ∧ (n : Int) = ceilDiv (s.length : Int) (p : Int)
      ∧ Split s (p : Int)
          = some ((List.range' 0 n).map (fun j => (s.drop (j * p)).take p)) := by
  have hlen : 0 < s.length := List.length_pos.mpr hs
  have hpz : (0 : Int) < (p : Int) := by exact_mod_cast hp
  obtain ⟨h1, h2⟩ := ceilDiv_bounds (s.length : Int) (p : Int) hpz
  have hc : 0 < ceilDiv (s.length : Int) (p : Int) := by
    by_contra hneg
    have : ceilDiv (s.length : Int) (p : Int) * (p : Int) ≤ 0 :=
      Int.mul_nonpos_of_nonpos_of_nonneg (by omega) (by omega)
    omega
  obtain ⟨n, hn⟩ := Int.eq_ofNat_of_zero_le (le_of_lt hc)
  rw [hn] at h1 h2 hc
  have hn0 : 0 < n := by exact_mod_cast hc
  have h2n : s.length ≤ n * p := by exact_mod_cast h2
  have h1n : (n - 1) * p < s.length := by
    have e : (((n - 1 : Nat) : Int)) = (n : Int) - 1 := by omega
    have : (((n - 1) * p : Nat) : Int) < (s.length : Int) := by
      push_cast
      rw [e]
      exact h1
    exact_mod_cast this
  refine ⟨n, hn0, h1n, h2n, hn.symm, ?_⟩
  unfold Split
  have hg : ¬ ((p : Int) ≤ 0 ∨ s.length = 0) := by omega
  rw [if_neg hg]
  by_cases hle : (s.length : Int) ≤ (p : Int)
  · rw [if_pos hle]
    have hn1 : n = 1 := by
      rcases Nat.lt_or_ge 1 n with h | h
      · have : 1 * p ≤ (n - 1) * p := Nat.mul_le_mul_right p (by omega)
        omega
      · omega
    have hss : SafeSlice s 0 (s.length : Int) = some s := by
      simp [SafeSlice, Copy]
    rw [hss, hn1]
    simp only [List.range'_one, List.map_cons, List.map_nil, Nat.zero_mul, List.drop_zero]
    rw [List.take_of_length_le (by omega)]
  · rw [if_neg hle]
    simp only [hn]
    rw [if_neg (by omega)]
    simp only [Int.toNat_ofNat]
    have hj : ∀ j, j < 0 + n → j * p ≤ s.length := by
      intro j hjn
      have : j * p ≤ (n - 1) * p := Nat.mul_le_mul_right p (by omega)
      omega
    have h := Split.loop_spec s p n 0 [] rfl hj
    simpa using h

/-- The length of block `i`. -/
theorem chunk_length (s : List α) (p i : Nat) :
    ((s.drop (i * p)).take p).length = min p (s.length - i * p) := by
  simp

/-- The loop of `Unique` keeps `result` and the keys of `tmp` equal, so `Unique`
    is the fold that appends each value not yet in the result. -/
theorem Unique_eq_foldl [DecidableEq α] (s : List α) :
    Unique s = s.foldl (fun r x => if x ∈ r then r else r ++ [x]) [] := by
  unfold Unique
  have key : ∀ (l r : List α),
      l.foldl
        (fun (st : List α × List α) x =>
          if x ∈ st.2 then st else (st.1 ++ [x], if x ∈ st.2 then st.2 else st.2 ++ [x]))
        (r, r)
        = (l.foldl (fun r x => if x ∈ r then r else r ++ [x]) r,
           l.foldl (fun r x => if x ∈ r then r else r ++ [x]) r) := by
    intro l
    induction l with
    | nil => intro r; rfl
    | cons x xs ih =>
      intro r
      simp only [List.foldl_cons]
      by_cases hx : x ∈ r
      · simp only [if_pos hx]
        exact ih r
      · simp only [if_neg hx]
        exact ih (r ++ [x])
  simp only
  rw [key]

/-- One more element at the end: it is appended unless `Unique s` has it. -/
theorem Unique_concat [DecidableEq α] (s : List α) (x : α) :
    Unique (s ++ [x]) = if x ∈ Unique s then Unique s else Unique s ++ [x] := by
  simp only [Unique_eq_foldl, List.foldl_append, List.foldl_cons, List.foldl_nil]

/-- `Unique s` holds exactly the values of `s`. -/
theorem mem_Unique [DecidableEq α] (s : List α) : ∀ v, v ∈ Unique s ↔ v ∈ s := by
  induction s using List.reverseRecOn with
  | nil => simp [Unique_eq_foldl]
  | append_singleton s x ih =>
    intro v
    rw [Unique_concat]
    by_cases hx : x ∈ Unique s
    · rw [if_pos hx, ih, List.mem_append, List.mem_singleton]
      constructor
      · exact Or.inl
      · rintro (h | h)
        · exact h
        · exact h ▸ (ih x).mp hx
    · rw [if_neg hx, List.mem_append, List.mem_append, ih]

/-- `Unique s` has no duplicates. -/
theorem nodup_Unique [DecidableEq α] (s : List α) : (Unique s).Nodup := by
  induction s using List.reverseRecOn with
  | nil => simp [Unique_eq_foldl]
  | append_singleton s x ih =>
    rw [Unique_concat]
    by_cases hx : x ∈ Unique s
    · rw [if_pos hx]; exact ih
    · rw [if_neg hx]
      exact List.Nodup.append ih (List.nodup_singleton x) (by simpa using hx)

/-- In `Unique s` the values stand in the order of their first occurrence in `s`. -/
theorem pairwise_Unique [DecidableEq α] (s : List α) :
    (Unique s).Pairwise (fun x y => s.indexOf x < s.indexOf y) := by
  induction s using List.reverseRecOn with
  | nil => simp [Unique_eq_foldl]
  | append_singleton s x ih =>
    have hold : (Unique s).Pairwise
        (fun a b => (s ++ [x]).indexOf a < (s ++ [x]).indexOf b) := by
      refine ih.imp_of_mem ?_
      intro a b ha hb hab
      rw [List.indexOf_append_of_mem ((mem_Unique s a).mp ha),
        List.indexOf_append_of_mem ((mem_Unique s b).mp hb)]
      exact hab
    rw [Unique_concat]
    by_cases hx : x ∈ Unique s
    · rw [if_pos hx]; exact hold
    · rw [if_neg hx, List.pairwise_append]
      refine ⟨hold, List.pairwise_singleton _ _, ?_⟩
      intro a ha b hb
      rw [List.mem_singleton] at hb
      subst hb
      have has : a ∈ s := (mem_Unique s a).mp ha
      have hbs : b ∉ s := fun h => hx ((mem_Unique s b).mpr h)
      rw [List.indexOf_append_of_mem has, List.indexOf_append_of_not_mem hbs]
      have := List.indexOf_lt_length.mpr has
      omega

/-- On a duplicate-free slice `Unique` changes nothing. -/
theorem Unique_of_nodup [DecidableEq α] (s : List α) (h : s.Nodup) : Unique s = s := by
  induction s using List.reverseRecOn with
  | nil => simp [Unique_eq_foldl]
  | append_singleton s x ih =>
    have hs : s.Nodup := (List.nodup_append.mp h).1
    have hx : x ∉ s := by
      intro hmem
      exact (List.nodup_append.mp h).2.2 hmem (List.mem_singleton_self x)
    rw [Unique_concat, ih hs, if_neg hx]

/-- Reading `pre ++ x :: post` at the position right after `pre`. -/
theorem index_append_cons (pre : List α) (x : α) (post : List α) :
    index (pre ++ x :: post) (pre.length : Int) = some x := by
  unfold index
  rw [if_pos (by omega)]
  simp [List.getElem_append_right]

/-- Writing `pre ++ x :: post` at the position right after `pre`. -/
theorem set_append_cons (pre : List α) (x y : α) (post : List α) :
    (pre ++ x :: post).set pre.length y = pre ++ y :: post := by
  rw [List.set_append_right _ _ (Nat.le_refl _)]
  simp

/-- The loop of `Reverse`, entered with the window `mid` between an untouched
    prefix and suffix, reverses the window. -/
theorem Reverse.loop_window (mid : List α) :
    ∀ (pre post : List α),
      Reverse.loop (pre ++ mid ++ post) (pre.length : Int)
          ((pre.length : Int) + (mid.length : Int) - 1)
        = some (pre ++ mid.reverse ++ post) := by
  induction mid using List.bidirectionalRec with
  | nil =>
    intro pre post
    rw [Reverse.loop, if_neg (by simp)]
    simp
  | singleton a =>
    intro pre post
    rw [Reverse.loop, if_neg (by simp)]
    simp
  | cons_append a l b ih =>
    intro pre post
    rw [Reverse.loop]
    have hlen : (a :: (l ++ [b])).length = l.length + 2 := by simp
    have hlen2 : (pre ++ a :: l).length = pre.length + l.length + 1 := by
      simp only [List.length_append, List.length_cons]
      omega
    have hlt : (pre.length : Int)
        < (pre.length : Int) + ((a :: (l ++ [b])).length : Int) - 1 := by
      omega
    rw [if_pos hlt]
    have hj : (pre.length : Int) + ((a :: (l ++ [b])).length : Int) - 1
        = ((pre ++ a :: l).length : Int) := by
      omega
    have e1 : pre ++ a :: (l ++ [b]) ++ post = (pre ++ a :: l) ++ b :: post := by simp
    have e2 : pre ++ a :: (l ++ [b]) ++ post = pre ++ a :: (l ++ b :: post) := by simp
    have hrj : index (pre ++ a :: (l ++ [b]) ++ post)
        ((pre.length : Int) + ((a :: (l ++ [b])).length : Int) - 1) = some b := by
      rw [hj, e1]
      exact index_append_cons (pre ++ a :: l) b post
    have hri : index (pre ++ a :: (l ++ [b]) ++ post) (pre.length : Int) = some a := by
      rw [e2]
      exact index_append_cons pre a (l ++ b :: post)
    rw [hrj, hri]
    simp only
    have hset : ((pre ++ a :: (l ++ [b]) ++ post).set (pre.length : Int).toNat b).set
        ((pre.length : Int) + ((a :: (l ++ [b])).length : Int) - 1).toNat a
          = (pre ++ [b]) ++ l ++ (a :: post) := by
      rw [hj, Int.toNat_ofNat, Int.toNat_ofNat, e2, set_append_cons]
      have e3 : pre ++ b :: (l ++ b :: post) = (pre ++ b :: l) ++ b :: post := by simp
      have e4 : (pre ++ a :: l).length = (pre ++ b :: l).length := by simp
      rw [e3, e4, set_append_cons]
      simp
    rw [hset]
    have hlen3 : (pre ++ [b]).length = pre.length + 1 := by simp
    have hi2 : (pre.length : Int) + 1 = ((pre ++ [b]).length : Int) := by omega
    have hj2 : (pre.length : Int) + ((a :: (l ++ [b])).length : Int) - 1 - 1
        = ((pre ++ [b]).length : Int) + (l.length : Int) - 1 := by
      omega
    rw [hi2, hj2, ih (pre ++ [b]) (a :: post)]
    simp

/-- `Reverse` returns (no index panic) the reversed list. -/
theorem Reverse_eq (s : List α) : Reverse s = some s.reverse := by
  have h := Reverse.loop_window s [] []
  simpa [Reverse, Copy] using h

/-- `RemoveValue` keeps, in order, the elements other than `value`. -/
theorem RemoveValue_eq_filter [DecidableEq α] (s : List α) (value : α) :
    RemoveValue s value = s.filter (fun x => decide (x ≠ value)) := by
  unfold RemoveValue
  have key : ∀ (l acc : List α),
      l.foldl (fun result x => if x ≠ value then result ++ [x] else result) acc
        = acc ++ l.filter (fun x => decide (x ≠ value)) := by
    intro l
    induction l with
    | nil => intro acc; simp
    | cons x xs ih =>
      intro acc
      rw [List.foldl_cons, ih]
      by_cases hx : x = value
      · simp [hx]
      · simp [hx]
  rw [key]
  simp

/-- The keys of the map `Diff` builds are the values of `s`. -/
theorem mem_valuesMapOf [DecidableEq α] (s : List α) (v : α) :
    v ∈ valuesMapOf s ↔ v ∈ s := by
  unfold valuesMapOf
  have key : ∀ (l acc : List α),
      v ∈ l.foldl (fun m x => if x ∈ m then m else m ++ [x]) acc ↔ v ∈ acc ∨ v ∈ l := by
    intro l
    induction l with
    | nil => intro acc; simp
    | cons x xs ih =>
      intro acc
      rw [List.foldl_cons, ih]
      by_cases hx : x ∈ acc
      · rw [if_pos hx, List.mem_cons]
        constructor
        · rintro (h | h)
          · exact Or.inl h
          · exact Or.inr (Or.inr h)
        · rintro (h | h | h)
          · exact Or.inl h
          · exact Or.inl (h ▸ hx)
          · exact Or.inr h
      · rw [if_neg hx, List.mem_append, List.mem_singleton, List.mem_cons]
        tauto
  rw [key]
  simp

/-- The inner loop of `Diff` over one other `o`: when the working copy holds only
    values of `s`, it loses exactly the values that occur in `o`. -/
theorem Diff_inner [DecidableEq α] (s o : List α) :
    ∀ result : List α, (∀ y ∈ result, y ∈ s) →
      o.foldl (fun result x => if x ∈ valuesMapOf s then RemoveValue result x else result)
          result
        = result.filter (fun y => decide (y ∉ o)) := by
  induction o with
  | nil => intro result _; simp
  | cons x xs ih =>
    intro result hres
    rw [List.foldl_cons]
    have hstep : (if x ∈ valuesMapOf s then RemoveValue result x else result)
        = result.filter (fun y => decide (y ≠ x)) := by
      by_cases hx : x ∈ valuesMapOf s
      · rw [if_pos hx, RemoveValue_eq_filter]
      · rw [if_neg hx]
        symm
        rw [List.filter_eq_self]
        intro y hy
        have hys := hres y hy
        have hxs : x ∉ s := fun h => hx ((mem_valuesMapOf s x).mpr h)
        simp only [decide_eq_true_eq]
        intro e
        exact hxs (e ▸ hys)
    rw [hstep, ih _ (fun y hy => hres y (List.mem_of_mem_filter hy)), List.filter_filter]
    congr 1
    funext y
    simp only [List.mem_cons, not_or, Bool.decide_and, Bool.and_comm]

/-- `Diff` with any others keeps, in order, the elements of `s` that occur in
    none of the others. -/
theorem Diff_eq_filter [DecidableEq α] (s : List α) (others : List (List α)) :
    Diff s others = s.filter (fun x => decide (∀ o ∈ others, x ∉ o)) := by
  unfold Diff
  by_cases h0 : others.length = 0
  · rw [if_pos h0]
    have : others = [] := List.length_eq_zero.mp h0
    subst this
    simp
  · rw [if_neg h0]
    simp only [Copy]
    have key : ∀ (os : List (List α)) (result : List α), (∀ y ∈ result, y ∈ s) →
        os.foldl
          (fun result o =>
            o.foldl (fun result x => if x ∈ valuesMapOf s then RemoveValue result x else result)
              result)
          result
          = result.filter (fun x => decide (∀ o ∈ os, x ∉ o)) := by
      intro os
      induction os with
      | nil => intro result _; simp
      | cons o os ih =>
        intro result hres
        rw [List.foldl_cons, Diff_inner s o result hres,
          ih _ (fun y hy => hres y (List.mem_of_mem_filter hy)), List.filter_filter]
        congr 1
        funext y
        simp only [List.mem_cons, forall_eq_or_imp, Bool.decide_and, Bool.and_comm]
    exact key others s (fun y hy => hy)

/-- `Merge` is the left fold of the claim. -/
theorem Merge_eq_MergeFold [DecidableEq α] (s : List α) (others : List (List α)) :
    Merge s others = MergeFold s others := by
  unfold Merge MergeFold Copy
  congr 1
  funext r o
  rw [Diff_eq_filter]
  congr 2
  funext x
  simp

/-- What the left fold holds: the start and every other's values; the start is a
    prefix. -/
theorem MergeFold_spec [DecidableEq α] (others : List (List α)) :
    ∀ s : List α, s <+: MergeFold s others
      ∧ ∀ v, v ∈ MergeFold s others ↔ v ∈ s ∨ ∃ o ∈ others, v ∈ o := by
  induction others with
  | nil => intro s; simp [MergeFold]
  | cons o os ih =>
    intro s
    have e : MergeFold s (o :: os)
        = MergeFold (s ++ o.filter (fun x => decide (x ∉ s))) os := rfl
    rw [e]
    obtain ⟨hp, hm⟩ := ih (s ++ o.filter (fun x => decide (x ∉ s)))
    refine ⟨(List.prefix_append s _).trans hp, ?_⟩
    intro v
    rw [hm]
    simp only [List.mem_append, List.mem_filter, decide_eq_true_eq, List.mem_cons,
      exists_eq_or_imp]
    by_cases hv : v ∈ s
    · simp [hv]
    · simp [hv]

/-- The loop of `IndexOf` answers -1 exactly when the value is not in the rest. -/
theorem IndexOf.loop_eq_neg_one [DecidableEq α] (value : α) :
    ∀ (l : List α) (i : Nat), IndexOf.loop value l i = -1 ↔ value ∉ l := by
  intro l
  induction l with
  | nil => intro i; simp [IndexOf.loop]
  | cons x xs ih =>
    intro i
    unfold IndexOf.loop
    by_cases hx : x = value
    · rw [if_pos hx]
      constructor
      · intro h; omega
      · intro h; exact absurd (hx ▸ List.mem_cons_self x xs) h
    · rw [if_neg hx, ih, List.mem_cons, not_or]
      constructor
      · intro h; exact ⟨fun e => hx e.symm, h⟩
      · intro h; exact h.2

/-- `HasValue` is membership. -/
theorem HasValue_iff [DecidableEq α] (s : List α) (value : α) :
    HasValue s value = true ↔ value ∈ s := by
  unfold HasValue IndexOf
  rw [bne_iff_ne, Ne, IndexOf.loop_eq_neg_one]
  exact not_not

/-- The loop of `Intersect` keeps, in order, the elements found in every other it
    is given. -/
theorem Intersect.loop_eq_filter [DecidableEq α] (os : List (List α)) :
    ∀ result : List α,
      Intersect.loop os result = result.filter (fun x => decide (∀ o ∈ os, x ∈ o)) := by
  induction os with
  | nil => intro result; simp [Intersect.loop]
  | cons o os ih =>
    intro result
    unfold Intersect.loop
    simp only [Filter_some]
    have hf : result.filter (fun x => decide (∀ o' ∈ o :: os, x ∈ o'))
        = (result.filter (fun t => HasValue o t)).filter
            (fun x => decide (∀ o' ∈ os, x ∈ o')) := by
      rw [List.filter_filter]
      congr 1
      funext x
      rw [Bool.eq_iff_iff]
      simp only [List.mem_cons, forall_eq_or_imp, decide_eq_true_eq, Bool.and_eq_true,
        HasValue_iff]
      exact and_comm
    rw [hf]
    by_cases he : (result.filter (fun t => HasValue o t)).length = 0
    · rw [if_pos he]
      have : result.filter (fun t => HasValue o t) = [] := List.length_eq_zero.mp he
      rw [this]
      rfl
    · rw [if_neg he]
      exact ih _

/-- The slice `Intersect` returns, for every sorter. -/
theorem Intersect_fst [DecidableEq α] (srt : SliceSorter α) (s : List α)
    (others : List (List α)) (hne : others ≠ []) :
    (Intersect srt s others).1 = s.filter (fun x => decide (∀ o ∈ others, x ∈ o)) := by
  have hpred : (fun x => decide (∀ o ∈ srt.sort others, x ∈ o))
      = (fun x => decide (∀ o ∈ others, x ∈ o)) := by
    funext x
    rw [Bool.eq_iff_iff]
    simp only [decide_eq_true_eq]
    constructor
    · intro h o ho
      exact h o ((srt.perm others).mem_iff.mpr ho)
    · intro h o ho
      exact h o ((srt.perm others).mem_iff.mp ho)
  have hlen : ¬ others.length = 0 := by
    simpa [List.length_eq_zero] using hne
  unfold Intersect
  rw [if_neg hlen]
  simp only
  split
  · rename_i heq
    have hp := srt.perm others
    rw [heq] at hp
    exact absurd hp.symm.eq_nil hne
  · rename_i o0 tl heq
    by_cases hl : o0.length = 0
    · rw [if_pos hl]
      simp only
      symm
      rw [List.filter_eq_nil_iff]
      intro x _
      simp only [decide_eq_true_eq, not_forall]
      have ho0 : o0 ∈ others := (srt.perm others).mem_iff.mp (by rw [heq]; simp)
      have hnil : o0 = [] := List.length_eq_zero.mp hl
      exact ⟨o0, ho0, by simp [hnil]⟩
    · rw [if_neg hl]
      simp only [Copy]
      rw [Intersect.loop_eq_filter, hpred]

/-- The capacity `Range` asks `make` for is not negative when both the distance
    and the step are negative. -/
theorem ceilDiv_nonneg_of_neg (a b : Int) (ha : a < 0) (hb : b < 0) : 0 ≤ ceilDiv a b := by
  obtain ⟨k, hk⟩ := Int.eq_negSucc_of_lt_zero ha
  obtain ⟨n, hn⟩ := Int.eq_negSucc_of_lt_zero hb
  subst hk
  subst hn
  unfold ceilDiv
  have e : Int.fdiv (-(Int.negSucc k)) (Int.negSucc n) = Int.negSucc (k / (n + 1)) := rfl
  rw [e]
  have := Int.negSucc_lt_zero (k / (n + 1))
  omega

/-- The capacity `Range` asks `make` for is not negative when both the distance
    and the step are positive. -/
theorem ceilDiv_nonneg_of_pos (a b : Int) (ha : 0 < a) (hb : 0 < b) : 0 ≤ ceilDiv a b := by
  obtain ⟨_, h2⟩ := ceilDiv_bounds a b hb
  by_contra hneg
  have : ceilDiv a b * b ≤ 0 := Int.mul_nonpos_of_nonpos_of_nonneg (by omega) (by omega)
  omega

/-- The terms `i, i + step, ...` of a progression, `m` of them. -/
theorem range_succ_progression (i step : Int) (m : Nat) :
    (List.range (m + 1)).map (fun (k : Nat) => i + (k : Int) * step)
      = i :: (List.range m).map (fun (k : Nat) => i + step + (k : Int) * step) := by
  rw [List.range_succ_eq_map, List.map_cons, List.map_map]
  congr 1
  · simp
  · apply List.map_congr_left
    intro k _
    simp only [Function.comp, Nat.cast_succ]
    ring

/-- An ascending loop: with `m` terms below `stop` it returns them, given more
    fuel than terms. -/
theorem Range.loop_ascending (stop step : Int) (hstep : 0 < step) :
    ∀ (m fuel : Nat) (i : Int) (acc : List Int),
      (0 < m → i + ((m : Int) - 1) * step < stop) → stop ≤ i + (m : Int) * step → m < fuel →
      Range.loop (fun i => decide (i < stop)) step fuel i acc
        = some (acc ++ (List.range m).map (fun (k : Nat) => i + (k : Int) * step)) := by
  intro m
  induction m with
  | zero =>
    intro fuel i acc _ hhi hf
    obtain ⟨f, rfl⟩ : ∃ f, fuel = f + 1 := ⟨fuel - 1, by omega⟩
    have hi : ¬ i < stop := by simp at hhi; omega
    simp [Range.loop, hi]
  | succ m ih =>
    intro fuel i acc hlo hhi hf
    obtain ⟨f, rfl⟩ : ∃ f, fuel = f + 1 := ⟨fuel - 1, by omega⟩
    have hlo1 := hlo (by omega)
    have hm : 0 ≤ (m : Int) * step := Int.mul_nonneg (by omega) (by omega)
    have hi : i < stop := by
      push_cast at hlo1
      have e : ((m : Int) + 1 - 1) * step = (m : Int) * step := by ring
      rw [e] at hlo1
      omega
    have hstepA : Range.loop (fun i => decide (i < stop)) step (f + 1) i acc
        = Range.loop (fun i => decide (i < stop)) step f (i + step) (acc ++ [i]) := by
      simp [Range.loop, hi]
    rw [hstepA, ih f (i + step) (acc ++ [i]) ?_ ?_ (by omega), range_succ_progression]
    · simp
    · intro _
      push_cast at hlo1
      have e1 : i + step + ((m : Int) - 1) * step = i + ((m : Int) + 1 - 1) * step := by ring
      rw [e1]
      exact hlo1
    · push_cast at hhi
      have e2 : i + step + (m : Int) * step = i + ((m : Int) + 1) * step := by ring
      rw [e2]
      exact hhi

/-- A descending loop: with `m` terms above `stop` it returns them, given more
    fuel than terms. -/
theorem Range.loop_descending (stop step : Int) (hstep : step < 0) :
    ∀ (m fuel : Nat) (i : Int) (acc : List Int),
      (0 < m → stop < i + ((m : Int) - 1) * step) → i + (m : Int) * step ≤ stop → m < fuel →
      Range.loop (fun i => decide (i > stop)) step fuel i acc
        = some (acc ++ (List.range m).map (fun (k : Nat) => i + (k : Int) * step)) := by
  intro m
  induction m with
  | zero =>
    intro fuel i acc _ hhi hf
    obtain ⟨f, rfl⟩ : ∃ f, fuel = f + 1 := ⟨fuel - 1, by omega⟩
    have hi : ¬ i > stop := by simp at hhi; omega
    simp [Range.loop, hi]
  | succ m ih =>
    intro fuel i acc hlo hhi hf
    obtain ⟨f, rfl⟩ : ∃ f, fuel = f + 1 := ⟨fuel - 1, by omega⟩
    have hlo1 := hlo (by omega)
    have hm : (m : Int) * step ≤ 0 := Int.mul_nonpos_of_nonneg_of_nonpos (by omega) (by omega)
    have hi : i > stop := by
      push_cast at hlo1
      have e : ((m : Int) + 1 - 1) * step = (m : Int) * step := by ring
      rw [e] at hlo1
      omega
    have hstepA : Range.loop (fun i => decide (i > stop)) step (f + 1) i acc
        = Range.loop (fun i => decide (i > stop)) step f (i + step) (acc ++ [i]) := by
      simp [Range.loop, hi]
    rw [hstepA, ih f (i + step) (acc ++ [i]) ?_ ?_ (by omega), range_succ_progression]
    · simp
    · intro _
      push_cast at hlo1
      have e1 : i + step + ((m : Int) - 1) * step = i + ((m : Int) + 1 - 1) * step := by ring
      rw [e1]
      exact hlo1
    · push_cast at hhi
      have e2 : i + step + (m : Int) * step = i + ((m : Int) + 1) * step := by ring
      rw [e2]
      exact hhi

/-- `Range` on an ascending range with a positive step: `n` terms, where `n` is
    the least number with `stop ≤ start + n * step`. -/
theorem Range_ascending (start stop step : Int) (h1 : start < stop) (h2 : 0 < step)
    (n : Nat) (hlo : start + ((n : Int) - 1) * step < stop)
    (hhi : stop ≤ start + (n : Int) * step) (fuel : Nat) (hf : n < fuel) :
    Range fuel start stop step
      = Outcome.value ((List.range n).map (fun (k : Nat) => start + (k : Int) * step)) := by
  unfold Range
  have hg : ¬ (step = 0 ∨ start = stop ∨ (start > stop ∧ step > 0)) := by omega
  have hcap : ¬ ceilDiv (stop - start) step < 0 := by
    have := ceilDiv_nonneg_of_pos (stop - start) step (by omega) h2
    omega
  rw [if_neg hg, if_neg hcap]
  simp only [if_neg (show ¬ start > stop by omega)]
  rw [Range.loop_ascending stop step h2 n fuel start [] (fun _ => hlo) hhi hf]
  simp

/-- `Range` on a descending range with a negative step: `n` terms, where `n` is
    the least number with `start + n * step ≤ stop`. -/
theorem Range_descending (start stop step : Int) (h1 : stop < start) (h2 : step < 0)
    (n : Nat) (hlo : stop < start + ((n : Int) - 1) * step)
    (hhi : start + (n : Int) * step ≤ stop) (fuel : Nat) (hf : n < fuel) :
    Range fuel start stop step
      = Outcome.value ((List.range n).map (fun (k : Nat) => start + (k : Int) * step)) := by
  unfold Range
  have hg : ¬ (step = 0 ∨ start = stop ∨ (start > stop ∧ step > 0)) := by omega
  have hcap : ¬ ceilDiv (stop - start) step < 0 := by
    have := ceilDiv_nonneg_of_neg (stop - start) step (by omega) h2
    omega
  rw [if_neg hg, if_neg hcap]
  simp only [if_pos (show start > stop by omega)]
  rw [Range.loop_descending stop step h2 n fuel start [] (fun _ => hlo) hhi hf]
  simp

/-- A run over producers of which producer `p` has already been invoked `c p`
    times: call `k` of the run returns the next value of the producer it names. -/
theorem runCalls_from {R : Type} [CommRing R] (starts steps : Nat → R) (calls : List Nat) :
    ∀ (c : Nat → Nat) (k : Nat),
      (runCalls
          (fun p => ({ start := starts p - steps p + (c p : R) * steps p,
                       step := steps p } : Producer R)) calls)[k]?
        = (calls[k]?).map
            (fun p => starts p + ((c p + (calls.take k).count p : Nat) : R) * steps p) := by
  induction calls with
  | nil => intro c k; simp [runCalls]
  | cons p rest ih =>
    intro c k
    have hupd : Function.update
        (fun p => ({ start := starts p - steps p + (c p : R) * steps p,
                     step := steps p } : Producer R)) p
        (Producer.call ({ start := starts p - steps p + (c p : R) * steps p,
                          step := steps p } : Producer R)).2
        = (fun q => ({ start := starts q - steps q
                          + ((Function.update c p (c p + 1)) q : R) * steps q,
                       step := steps q } : Producer R)) := by
      funext q
      by_cases hq : q = p
      · subst hq
        simp only [Function.update_same, Producer.call, Nat.cast_add, Nat.cast_one]
        congr 1
        ring
      · simp only [Function.update_noteq hq]
    cases k with
    | zero =>
      simp only [runCalls, List.getElem?_cons_zero, Option.map_some', List.take_zero,
        List.count_nil, Nat.add_zero, Producer.call]
      congr 1
      ring
    | succ k =>
      simp only [runCalls, List.getElem?_cons_succ, List.take_succ_cons]
      rw [hupd, ih]
      congr 1
      funext q
      by_cases hq : q = p
      · subst hq
        simp only [Function.update_same, List.count_cons_self]
        congr 2
        push_cast
        ring
      · have hpq : ¬ p = q := fun e => hq e.symm
        simp [Function.update_noteq hq, List.count_cons, hpq]

/-- The loop of `IndexOf`, started at counter `i` on a rest that holds `value`,
    returns `i + k` with `k` the first position of `value` in the rest. -/
theorem IndexOf.loop_found [DecidableEq α] (value : α) :
    ∀ (l : List α) (i : Nat), value ∈ l →
      ∃ k : Nat, IndexOf.loop value l i = ((i + k : Nat) : Int) ∧ k < l.length
        ∧ l[k]? = some value ∧ ∀ j : Nat, j < k → l[j]? ≠ some value := by
  intro l
  induction l with
  | nil => intro i h; cases h
  | cons x xs ih =>
    intro i hmem
    by_cases hx : x = value
    · refine ⟨0, ?_, by simp, by simp [hx], ?_⟩
      · simp [IndexOf.loop, hx]
      · intro j hj
        omega
    · have hxs : value ∈ xs := by
        rcases List.mem_cons.mp hmem with e | h
        · exact absurd e.symm hx
        · exact h
      obtain ⟨k, h1, h2, h3, h4⟩ := ih (i + 1) hxs
      refine ⟨k + 1, ?_, by simp; omega, by simpa using h3, ?_⟩
      · unfold IndexOf.loop
        rw [if_neg hx, h1]
        push_cast
        ring
      · intro j hj
        cases j with
        | zero =>
          simp only [List.getElem?_cons_zero, ne_eq, Option.some.injEq]
          exact hx
        | succ j =>
          simp only [List.getElem?_cons_succ]
          exact h4 j (by omega)

/-- The loop of `Min`: the result is the start value or a visited element, and is
    below the start value and every visited element. -/
theorem Min_loop {R : Type} [LinearOrder R] :
    ∀ (l : List R) (acc : R),
      (l.foldl (fun result x => if x < result then x else result) acc = acc
          ∨ l.foldl (fun result x => if x < result then x else result) acc ∈ l)
        ∧ l.foldl (fun result x => if x < result then x else result) acc ≤ acc
        ∧ ∀ x ∈ l, l.foldl (fun result x => if x < result then x else result) acc ≤ x := by
  intro l
  induction l with
  | nil => intro acc; simp
  | cons y ys ih =>
    intro acc
    rw [List.foldl_cons]
    obtain ⟨h1, h2, h3⟩ := ih (if y < acc then y else acc)
    have hle : (if y < acc then y else acc) ≤ acc ∧ (if y < acc then y else acc) ≤ y := by
      by_cases hy : y < acc
      · rw [if_pos hy]; exact ⟨le_of_lt hy, le_refl y⟩
      · rw [if_neg hy]; exact ⟨le_refl acc, not_lt.mp hy⟩
    refine ⟨?_, le_trans h2 hle.1, ?_⟩
    · rcases h1 with h1 | h1
      · by_cases hy : y < acc
        · rw [if_pos hy] at h1 ⊢
          refine Or.inr ?_
          rw [h1]
          exact List.mem_cons_self y ys
        · rw [if_neg hy] at h1 ⊢
          exact Or.inl h1
      · exact Or.inr (List.mem_cons_of_mem y h1)
    · intro x hx
      rcases List.mem_cons.mp hx with e | hxs
      · rw [e]; exact le_trans h2 hle.2
      · exact h3 x hxs

/-- The loop of `Max`: the result is the start value or a visited element, and is
    above the start value and every visited element. -/
theorem Max_loop {R : Type} [LinearOrder R] :
    ∀ (l : List R) (acc : R),
      (l.foldl (fun result x => if x > result then x else result) acc = acc
          ∨ l.foldl (fun result x => if x > result then x else result) acc ∈ l)
        ∧ acc ≤ l.foldl (fun result x => if x > result then x else result) acc
        ∧ ∀ x ∈ l, x ≤ l.foldl (fun result x => if x > result then x else result) acc := by
  intro l
  induction l with
  | nil => intro acc; simp
  | cons y ys ih =>
    intro acc
    rw [List.foldl_cons]
    obtain ⟨h1, h2, h3⟩ := ih (if y > acc then y else acc)
    have hle : acc ≤ (if y > acc then y else acc) ∧ y ≤ (if y > acc then y else acc) := by
      by_cases hy : y > acc
      · rw [if_pos hy]; exact ⟨le_of_lt hy, le_refl y⟩
      · rw [if_neg hy]; exact ⟨le_refl acc, not_lt.mp hy⟩
    refine ⟨?_, le_trans hle.1 h2, ?_⟩
    · rcases h1 with h1 | h1
      · by_cases hy : y > acc
        · rw [if_pos hy] at h1 ⊢
          refine Or.inr ?_
          rw [h1]
          exact List.mem_cons_self y ys
        · rw [if_neg hy] at h1 ⊢
          exact Or.inl h1
      · exact Or.inr (List.mem_cons_of_mem y h1)
    · intro x hx
      rcases List.mem_cons.mp hx with e | hxs
      · rw [e]; exact le_trans hle.2 h2
      · exact h3 x hxs

/-- `Unique` of a concatenation continues the loop from `Unique` of the first part. -/
theorem Unique_append [DecidableEq α] (a b : List α) :
    Unique (a ++ b) = b.foldl (fun r x => if x ∈ r then r else r ++ [x]) (Unique a) := by
  simp only [Unique_eq_foldl, List.foldl_append]

/-- The loop of `Unique` skips the values it already holds: values of `a` may be
    dropped from the input once the result holds all of `a`. -/
theorem Unique_loop_filter [DecidableEq α] (a : List α) :
    ∀ (b acc : List α), (∀ x ∈ a, x ∈ acc) →
      b.foldl (fun r x => if x ∈ r then r else r ++ [x]) acc
        = (b.filter (fun x => decide (x ∉ a))).foldl
            (fun r x => if x ∈ r then r else r ++ [x]) acc := by
  intro b
  induction b with
  | nil => intro acc _; rfl
  | cons y ys ih =>
    intro acc hacc
    by_cases hy : y ∈ a
    · have hya : y ∈ acc := hacc y hy
      rw [List.foldl_cons, if_pos hya, List.filter_cons_of_neg (by simpa using hy)]
      exact ih acc hacc
    · rw [List.foldl_cons, List.filter_cons_of_pos (by simpa using hy), List.foldl_cons]
      apply ih
      intro x hx
      by_cases hyacc : y ∈ acc
      · rw [if_pos hyacc]; exact hacc x hx
      · rw [if_neg hyacc]; exact List.mem_append_left _ (hacc x hx)

/-- On duplicate-free inputs the left fold of `Merge` is `Unique` of all inputs
    laid end to end. -/
theorem MergeFold_eq_Unique [DecidableEq α] (others : List (List α)) :
    ∀ s : List α, s.Nodup → (∀ o ∈ others, o.Nodup) →
      MergeFold s others = Unique (s ++ others.flatten) := by
  induction others with
  | nil =>
    intro s hs _
    simp only [MergeFold, List.foldl_nil, List.flatten_nil, List.append_nil]
    exact (Unique_of_nodup s hs).symm
  | cons o os ih =>
    intro s hs hall
    have ho : o.Nodup := hall o (List.mem_cons_self o os)
    have e : MergeFold s (o :: os)
        = MergeFold (s ++ o.filter (fun x => decide (x ∉ s))) os := rfl
    have hnd : (s ++ o.filter (fun x => decide (x ∉ s))).Nodup := by
      refine List.Nodup.append hs (ho.filter _) ?_
      intro x hxs hxo
      have := (List.mem_filter.mp hxo).2
      simp only [decide_eq_true_eq] at this
      exact this hxs
    rw [e, ih _ hnd (fun o' ho' => hall o' (List.mem_cons_of_mem o ho'))]
    rw [List.flatten_cons, ← List.append_assoc, Unique_append, Unique_append (s ++ o)]
    congr 1
    rw [Unique_append, Unique_append, Unique_of_nodup s hs]
    exact (Unique_loop_filter s o s (fun x hx => hx)).symm

/-! ### Claims -/

/-- C1 (evaluation at the failing inputs): `Merge` keeps the duplicates that one
    input already has.  `Merge([1,1])` is `[1,1]` and `Merge([1], [2,2])` is
    `[1,2,2]`; neither output is duplicate-free. -/
theorem Merge_keeps_duplicates_of_one_input :
    Merge [1, 1] ([] : List (List Nat)) = [1, 1]
      ∧ ¬ (Merge [1, 1] ([] : List (List Nat))).Nodup
      ∧ Merge [1] [[2, 2]] = [1, 2, 2]
      ∧ ¬ (Merge [1] [[(2 : Nat), 2]]).Nodup := by
  decide

/-- C2 (evaluation at the failing inputs): an ascending range with a negative step
    is not caught by the guard of `Range`.  `Range(0, 3, -1)` asks `make` for the
    capacity `-3` and panics; `Range(0, 1, -5)` gets capacity 0 and then never
    leaves its loop, whatever the fuel. -/
theorem Range_ascending_negative_step_fails :
    (∀ fuel, Range fuel 0 3 (-1) = Outcome.fault)
      ∧ (∀ fuel, Range fuel 0 1 (-5) = Outcome.running) := by
  constructor
  · intro fuel
    rfl
  · intro fuel
    have h := Range.loop_lt_nonpos_step 1 (-5) (by decide) fuel 0 [] (by decide)
    simp only [Range]
    rw [if_neg (by decide), if_neg (by decide)]
    simp only [if_neg (show ¬ ((0 : Int) > 1) by decide), h]

/-- C3 (evaluation at the failing input): for every sorter that meets the contract
    of `sort.Slice`, `Intersect([1,2,3], others...)` with `others = [[1,2],[1]]`
    returns `[1]` and leaves the caller's `others` as `[[1],[1,2]]`: the two
    members have changed places. -/
theorem Intersect_sorts_the_callers_others (srt : SliceSorter Nat) :
    Intersect srt [1, 2, 3] [[1, 2], [1]] = ([1], [[1], [1, 2]])
      ∧ (Intersect srt [1, 2, 3] [[1, 2], [1]]).2 ≠ [[1, 2], [1]] := by
  have h := srt.sort_pair [1, 2] [1] (by decide)
  simp only [Intersect, h, Intersect.loop, Filter_some]
  decide

/-- C9: for every sequence `s` and every `partSize > 0`, `Split(s, partSize)`
    returns (it does not panic) and its chunks, concatenated in order, are exactly
    `s`. -/
theorem Split_chunks_concat (s : List α) (partSize : Int) (h : 0 < partSize) :
    ∃ chunks, Split s partSize = some chunks ∧ chunks.flatten = s := by
  by_cases hs : s = []
  · subst hs
    exact ⟨[], by simp [Split], rfl⟩
  · obtain ⟨p, hp⟩ := Int.eq_ofNat_of_zero_le (le_of_lt h)
    subst hp
    have hp0 : 0 < p := by exact_mod_cast h
    obtain ⟨n, _, _, h2, _, heq⟩ := Split_eq_chunks s p hp0 hs
    refine ⟨_, heq, ?_⟩
    rw [flatten_chunks s p n 0]
    simp only [Nat.zero_mul, List.drop_zero]
    exact List.take_of_length_le h2

/-- C9 (witness): the five-element slice of the repository's test, cut by 2. -/
theorem Split_chunks_concat_witness :
    (0 : Int) < 2 ∧ ∃ chunks, Split [1, 2, 3, 4, 5] 2 = some chunks
      ∧ chunks.flatten = [1, 2, 3, 4, 5] :=
  ⟨by decide, Split_chunks_concat [1, 2, 3, 4, 5] 2 (by decide)⟩

/-- C10: `Split(s, partSize)` returns the empty outer sequence exactly when
    `partSize <= 0` or `s` is empty; for a non-empty `s` and `partSize > 0` it
    returns exactly `ceil(len(s)/partSize)` chunks (at least one), every chunk
    but the last has exactly `partSize` elements, and the last has between 1 and
    `partSize` elements. -/
theorem Split_chunk_count_and_sizes (s : List α) (partSize : Int) :
    (Split s partSize = some [] ↔ (partSize ≤ 0 ∨ s = []))
      ∧ (s ≠ [] → 0 < partSize →
          ∃ chunks, Split s partSize = some chunks
            ∧ (chunks.length : Int) = ⌈(s.length : ℚ) / (partSize : ℚ)⌉
            ∧ 0 < chunks.length
            ∧ ∀ (i : Nat) (hi : i < chunks.length),
                (i + 1 < chunks.length →
                  ((chunks.get ⟨i, hi⟩).length : Int) = partSize)
                ∧ (i + 1 = chunks.length →
                  1 ≤ (chunks.get ⟨i, hi⟩).length
                    ∧ ((chunks.get ⟨i, hi⟩).length : Int) ≤ partSize)) := by
  have main : s ≠ [] → 0 < partSize →
      ∃ chunks, Split s partSize = some chunks
        ∧ (chunks.length : Int) = ⌈(s.length : ℚ) / (partSize : ℚ)⌉
        ∧ 0 < chunks.length
        ∧ ∀ (i : Nat) (hi : i < chunks.length),
            (i + 1 < chunks.length →
              ((chunks.get ⟨i, hi⟩).length : Int) = partSize)
            ∧ (i + 1 = chunks.length →
              1 ≤ (chunks.get ⟨i, hi⟩).length
                ∧ ((chunks.get ⟨i, hi⟩).length : Int) ≤ partSize) := by
    intro hs h
    obtain ⟨p, hp⟩ := Int.eq_ofNat_of_zero_le (le_of_lt h)
    subst hp
    have hp0 : 0 < p := by exact_mod_cast h
    obtain ⟨n, hn0, h1, h2, hn, heq⟩ := Split_eq_chunks s p hp0 hs
    refine ⟨_, heq, ?_, ?_, ?_⟩
    · rw [List.length_map, List.length_range', hn, ceilDiv_eq_ceil _ _ h]
      simp
    · simpa using hn0
    · intro i hi
      have hin : i < n := by simpa using hi
      have hget : ((List.range' 0 n).map (fun j => (s.drop (j * p)).take p)).get ⟨i, hi⟩
          = (s.drop (i * p)).take p := by
        simp [List.getElem_range']
      rw [hget, chunk_length]
      simp only [List.length_map, List.length_range']
      constructor
      · intro hlt
        have : (i + 1) * p ≤ (n - 1) * p := Nat.mul_le_mul_right p (by omega)
        have e : (i + 1) * p = i * p + p := by ring
        have : min p (s.length - i * p) = p := by omega
        rw [this]
      · intro heq1
        have e : i = n - 1 := by omega
        subst e
        omega
  refine ⟨?_, main⟩
  constructor
  · intro hsplit
    by_contra hcon
    have hs : s ≠ [] := fun e => hcon (Or.inr e)
    have hp : 0 < partSize := by
      by_contra hneg
      exact hcon (Or.inl (by omega))
    obtain ⟨chunks, hc, _, hpos, _⟩ := main hs hp
    rw [hsplit] at hc
    cases hc
    simp at hpos
  · intro h
    have hg : partSize ≤ 0 ∨ s.length = 0 := by
      rcases h with h | h
      · exact Or.inl h
      · exact Or.inr (by simp [h])
    unfold Split
    rw [if_pos hg]

/-- C10 (witness): five elements cut by 2 give 3 = ceil(5/2) chunks of sizes
    2, 2, 1. -/
theorem Split_chunk_count_and_sizes_witness :
    ([1, 2, 3, 4, 5] : List Nat) ≠ [] ∧ (0 : Int) < 2
      ∧ ∃ chunks, Split [1, 2, 3, 4, 5] 2 = some chunks
          ∧ (chunks.length : Int) = ⌈(([1, 2, 3, 4, 5] : List Nat).length : ℚ) / ((2 : Int) : ℚ)⌉
          ∧ 0 < chunks.length
          ∧ ∀ (i : Nat) (hi : i < chunks.length),
              (i + 1 < chunks.length → ((chunks.get ⟨i, hi⟩).length : Int) = 2)
              ∧ (i + 1 = chunks.length →
                1 ≤ (chunks.get ⟨i, hi⟩).length
                  ∧ ((chunks.get ⟨i, hi⟩).length : Int) ≤ 2) :=
  ⟨by decide, by decide,
    (Split_chunk_count_and_sizes [1, 2, 3, 4, 5] 2).2 (by decide) (by decide)⟩

/-- C11: `Unique(s)` contains no duplicates, contains exactly the values that
    occur in `s`, and lists them in the order of their first occurrence: when `x`
    precedes `y` in `Unique(s)`, the first index of `x` in `s` is smaller than the
    first index of `y` in `s`. -/
theorem Unique_first_occurrences [DecidableEq α] (s : List α) :
    (Unique s).Nodup
      ∧ (∀ v, v ∈ Unique s ↔ v ∈ s)
      ∧ (Unique s).Pairwise (fun x y => s.indexOf x < s.indexOf y) :=
  ⟨nodup_Unique s, mem_Unique s, pairwise_Unique s⟩

/-- C12: `Unique(Unique(s)) = Unique(s)` for every sequence `s`. -/
theorem Unique_idempotent [DecidableEq α] (s : List α) :
    Unique (Unique s) = Unique s :=
  Unique_of_nodup (Unique s) (nodup_Unique s)

/-- C13: `Reverse(Reverse(s)) = s` for every sequence `s`; `Reverse(s)` returns
    (no index panic), has the length of `s`, and its element at position `i` is
    the element of `s` at position `len(s)-1-i`. -/
theorem Reverse_involution (s : List α) :
    ∃ r, Reverse s = some r
      ∧ Reverse r = some s
      ∧ r.length = s.length
      ∧ ∀ i : Nat, i < s.length → r[i]? = s[s.length - 1 - i]? := by
  refine ⟨s.reverse, Reverse_eq s, ?_, List.length_reverse s, ?_⟩
  · rw [Reverse_eq, List.reverse_reverse]
  · intro i hi
    exact List.getElem?_reverse hi

/-- C13 (witness): position 1 of `Reverse([1,2,3,4,5])` holds `s[3] = 4`. -/
theorem Reverse_involution_witness :
    ∃ r, Reverse [1, 2, 3, 4, 5] = some r ∧ r[1]? = some 4 := by
  obtain ⟨r, h1, _, _, h4⟩ := Reverse_involution [1, 2, 3, 4, 5]
  exact ⟨r, h1, h4 1 (by decide)⟩

/-- C14: `Diff(s, others...)` is `s` without the elements that occur in at least
    one of the others: the remaining elements keep their order and all their
    occurrences (it is the filter of `s`, hence a sublist; a value outside every
    other occurs as often as in `s`, a value inside one does not occur); with
    zero others the result is `s`. -/
theorem Diff_removes_values_of_others [DecidableEq α] (s : List α)
    (others : List (List α)) :
    Diff s others = s.filter (fun x => decide (∀ o ∈ others, x ∉ o))
      ∧ (Diff s others).Sublist s
      ∧ (∀ v, (∀ o ∈ others, v ∉ o) → (Diff s others).count v = s.count v)
      ∧ (∀ v, (∃ o ∈ others, v ∈ o) → v ∉ Diff s others)
      ∧ Diff s [] = s := by
  refine ⟨Diff_eq_filter s others, ?_, ?_, ?_, rfl⟩
  · rw [Diff_eq_filter]
    exact List.filter_sublist s
  · intro v hv
    rw [Diff_eq_filter, List.count_filter]
    simpa using hv
  · rintro v ⟨o, ho, hvo⟩
    rw [Diff_eq_filter, List.mem_filter]
    rintro ⟨_, hall⟩
    simp only [decide_eq_true_eq] at hall
    exact hall o ho hvo

/-- C14 (witness): the case of TestDiff, with a repeated element added. -/
theorem Diff_removes_values_of_others_witness :
    Diff [1, 2, 1, 3, 4, 5] [[2, 3], [4, 5]] = [1, 1]
      ∧ (Diff [1, 2, 1, 3, 4, 5] [[2, 3], [4, 5]]).count 1 = 2 := by
  have h := Diff_removes_values_of_others [1, 2, 1, 3, 4, 5] [[2, 3], [4, 5]]
  refine ⟨h.1.trans (by decide), ?_⟩
  rw [h.2.2.1 1 (by decide)]
  decide

/-- C15: for a non-empty list `others`, `Intersect(s, others...)` is the
    subsequence of `s` (order and repetitions kept) of the elements that occur
    in every one of the others, whatever the order in which the others are given
    and however `sort.Slice` arranges them; an empty member of `others` makes the
    result empty, and with zero others the result is empty. -/
theorem Intersect_is_common_subsequence [DecidableEq α] (srt : SliceSorter α)
    (s : List α) (others : List (List α)) :
    (others ≠ [] →
        (Intersect srt s others).1 = s.filter (fun x => decide (∀ o ∈ others, x ∈ o)))
      ∧ (∀ (srt2 : SliceSorter α) (others2 : List (List α)), others2.Perm others →
          (Intersect srt2 s others2).1 = (Intersect srt s others).1)
      ∧ ([] ∈ others → (Intersect srt s others).1 = [])
      ∧ (Intersect srt s []).1 = [] := by
  have hnil : ∀ srt' : SliceSorter α, (Intersect srt' s []).1 = [] := by
    intro srt'
    simp [Intersect]
  refine ⟨Intersect_fst srt s others, ?_, ?_, hnil srt⟩
  · intro srt2 others2 hp
    by_cases hne : others = []
    · subst hne
      rw [hp.eq_nil, hnil, hnil]
    · have hne2 : others2 ≠ [] := fun e => hne (by rw [e] at hp; exact hp.symm.eq_nil)
      rw [Intersect_fst srt s others hne, Intersect_fst srt2 s others2 hne2]
      congr 1
      funext x
      rw [Bool.eq_iff_iff]
      simp only [decide_eq_true_eq]
      constructor
      · intro h o ho
        exact h o (hp.mem_iff.mpr ho)
      · intro h o ho
        exact h o (hp.mem_iff.mp ho)
  · intro hmem
    rw [Intersect_fst srt s others (List.ne_nil_of_mem hmem), List.filter_eq_nil_iff]
    intro x _
    simp only [decide_eq_true_eq, not_forall]
    exact ⟨[], hmem, by simp⟩

/-- C15 (witness): the case `one` of TestIntersect, on numbers, with the others
    in both orders. -/
theorem Intersect_is_common_subsequence_witness :
    ([[1, 7], [9, 1]] : List (List Nat)) ≠ []
      ∧ (Intersect (insertionSorter Nat) [1, 2, 3, 4, 5] [[1, 7], [9, 1]]).1 = [1]
      ∧ (Intersect (insertionSorter Nat) [1, 2, 3, 4, 5] [[9, 1], [1, 7]]).1
          = (Intersect (insertionSorter Nat) [1, 2, 3, 4, 5] [[1, 7], [9, 1]]).1 := by
  have h := Intersect_is_common_subsequence (insertionSorter Nat) [1, 2, 3, 4, 5]
    [[1, 7], [9, 1]]
  refine ⟨by decide, (h.1 (by decide)).trans (by decide), ?_⟩
  exact h.2.1 (insertionSorter Nat) [[9, 1], [1, 7]] (List.Perm.swap _ _ _)

/-- C16: `Merge(s, others...)` equals the left fold `r0 = s`,
    `r(i) = r(i-1) ++ [x in o(i), in o(i)'s order, x not in r(i-1)]`; hence `s` is
    a prefix of the result and a value occurs in the result iff it occurs in `s`
    or in some `o(i)`. -/
theorem Merge_is_left_fold [DecidableEq α] (s : List α) (others : List (List α)) :
    Merge s others = MergeFold s others
      ∧ s <+: Merge s others
      ∧ ∀ v, v ∈ Merge s others ↔ v ∈ s ∨ ∃ o ∈ others, v ∈ o := by
  rw [Merge_eq_MergeFold]
  exact ⟨rfl, (MergeFold_spec others s).1, (MergeFold_spec others s).2⟩

/-- C17: for `start < stop` with `step > 0`, or `start > stop` with `step < 0`,
    `Range(start, stop, step)` terminates (every fuel above `n` suffices) and
    returns the sequence whose `i`-th element is `start + i*step` for
    `i = 0 .. n-1`, where `n = ceil(|stop - start| / |step|)`: it begins with
    `start`, never contains `stop`, and contains every term of the progression
    that lies before `stop`. -/
theorem Range_is_progression (start stop step : Int)
    (h : (start < stop ∧ 0 < step) ∨ (stop < start ∧ step < 0)) :
    ∃ n : Nat,
      (n : Int) = ⌈((|stop - start| : Int) : ℚ) / ((|step| : Int) : ℚ)⌉
        ∧ (∀ fuel : Nat, n < fuel →
            Range fuel start stop step
              = Outcome.value
                  ((List.range n).map (fun (k : Nat) => start + (k : Int) * step)))
        ∧ ((List.range n).map (fun (k : Nat) => start + (k : Int) * step)).head? = some start
        ∧ stop ∉ (List.range n).map (fun (k : Nat) => start + (k : Int) * step)
        ∧ ∀ k : Nat,
            ((start < stop ∧ start + (k : Int) * step < stop)
              ∨ (stop < start ∧ stop < start + (k : Int) * step)) →
            start + (k : Int) * step
              ∈ (List.range n).map (fun (k : Nat) => start + (k : Int) * step) := by
  have habs : 0 < |step| := by
    rcases h with ⟨_, h2⟩ | ⟨_, h2⟩
    · exact abs_pos.mpr (by omega)
    · exact abs_pos.mpr (by omega)
  have hdist : 0 < |stop - start| := by
    rcases h with ⟨h1, _⟩ | ⟨h1, _⟩
    · exact abs_pos.mpr (by omega)
    · exact abs_pos.mpr (by omega)
  obtain ⟨b1, b2⟩ := ceilDiv_bounds |stop - start| |step| habs
  have hc : 0 < ceilDiv |stop - start| |step| := by
    by_contra hneg
    have : ceilDiv |stop - start| |step| * |step| ≤ 0 :=
      Int.mul_nonpos_of_nonpos_of_nonneg (by omega) (by omega)
    omega
  obtain ⟨n, hn⟩ := Int.eq_ofNat_of_zero_le (le_of_lt hc)
  have hceil := ceilDiv_eq_ceil |stop - start| |step| habs
  rw [hn] at b1 b2 hc hceil
  have hn0 : 0 < n := by exact_mod_cast hc
  have hhead : ((List.range n).map (fun (k : Nat) => start + (k : Int) * step)).head?
      = some start := by
    obtain ⟨m, rfl⟩ : ∃ m, n = m + 1 := ⟨n - 1, by omega⟩
    rw [range_succ_progression]
    rfl
  refine ⟨n, hceil, ?_, hhead, ?_, ?_⟩
  · intro fuel hf
    rcases h with ⟨h1, h2⟩ | ⟨h1, h2⟩
    · rw [abs_of_pos (show 0 < stop - start by omega), abs_of_pos h2] at b1 b2
      exact Range_ascending start stop step h1 h2 n (by linarith) (by linarith) fuel hf
    · rw [abs_of_neg (show stop - start < 0 by omega), abs_of_neg h2] at b1 b2
      exact Range_descending start stop step h1 h2 n (by linarith) (by linarith) fuel hf
  · intro hmem
    obtain ⟨k, hk, hke⟩ := List.mem_map.mp hmem
    have hkn : (k : Int) ≤ (n : Int) - 1 := by
      have := List.mem_range.mp hk
      omega
    rcases h with ⟨h1, h2⟩ | ⟨h1, h2⟩
    · rw [abs_of_pos (show 0 < stop - start by omega), abs_of_pos h2] at b1 b2
      have := Int.mul_le_mul_of_nonneg_right hkn (le_of_lt h2)
      linarith
    · rw [abs_of_neg (show stop - start < 0 by omega), abs_of_neg h2] at b1 b2
      have := Int.mul_le_mul_of_nonneg_right hkn (show (0 : Int) ≤ -step by omega)
      linarith
  · intro k hk
    refine List.mem_map.mpr ⟨k, List.mem_range.mpr ?_, rfl⟩
    by_contra hge
    have hkn : (n : Int) ≤ (k : Int) := by omega
    rcases h with ⟨h1, h2⟩ | ⟨h1, h2⟩
    · rw [abs_of_pos (show 0 < stop - start by omega), abs_of_pos h2] at b1 b2
      have := Int.mul_le_mul_of_nonneg_right hkn (le_of_lt h2)
      rcases hk with ⟨_, hk⟩ | ⟨hk, _⟩
      · linarith
      · omega
    · rw [abs_of_neg (show stop - start < 0 by omega), abs_of_neg h2] at b1 b2
      have := Int.mul_le_mul_of_nonneg_right hkn (show (0 : Int) ≤ -step by omega)
      rcases hk with ⟨hk, _⟩ | ⟨_, hk⟩
      · omega
      · linarith

/-- C17 (witness): `Range(2, -1, -1)`, the `backward` case of TestRange, has
    `n = 3` terms and is `[2, 1, 0]`. -/
theorem Range_is_progression_witness :
    (((2 : Int) < -1 ∧ (0 : Int) < -1) ∨ ((-1 : Int) < 2 ∧ (-1 : Int) < 0))
      ∧ Range 4 2 (-1) (-1) = Outcome.value [2, 1, 0] := by
  refine ⟨Or.inr (by decide), ?_⟩
  obtain ⟨n, h1, h2, _⟩ := Range_is_progression 2 (-1) (-1) (Or.inr (by decide))
  have hn : n = 3 := by
    have h3 : (n : Int) = 3 := by
      rw [h1]
      norm_num
    exact_mod_cast h3
  subst hn
  rw [h2 4 (by decide)]
  decide

/-- C18 (evaluation at the failing input): float64,
    `SequenceGenerator(1.0, 1e17)`: both arguments are float64 values, and the
    first call of the producer returns 0, not `start`: `start -= step` rounds
    `1 - 1e17` to `-1e17`, and the closure returns `-1e17 + 1e17`.  In every
    numeric kind the first call returns `(start - step) + step`, computed in the
    arithmetic of that kind. -/
theorem SequenceGenerator_first_call_is_not_start :
    roundToFloat64 1 = 1 ∧ roundToFloat64 (10 ^ 17) = 10 ^ 17
      ∧ (Producer.call (SequenceGenerator (⟨1⟩ : Float64Whole) ⟨10 ^ 17⟩)).1 = ⟨0⟩
      ∧ ∀ (R : Type) [Add R] [Sub R] (start step : R),
          (Producer.call (SequenceGenerator start step)).1 = (start - step) + step := by
  refine ⟨by decide, by decide, by decide, ?_⟩
  intro R _ _ start step
  rfl

/-- C19: `Filter(s, f)` is the subsequence of `s` of exactly the elements on which
    `f` is true, in their order and with their multiplicities; with a nil
    predicate the result is `s`. -/
theorem Filter_keeps_accepted [DecidableEq α] (s : List α) (f : α → Bool) :
    Filter s (some f) = s.filter f
      ∧ (Filter s (some f)).Sublist s
      ∧ (∀ v, v ∈ Filter s (some f) ↔ v ∈ s ∧ f v = true)
      ∧ (∀ v, f v = true → (Filter s (some f)).count v = s.count v)
      ∧ Filter s none = s := by
  rw [Filter_some]
  refine ⟨rfl, List.filter_sublist s, fun v => List.mem_filter, ?_, rfl⟩
  intro v hv
  rw [List.count_filter hv]

/-- C19 (witness): keeping the even numbers keeps both occurrences of 2. -/
theorem Filter_keeps_accepted_witness :
    (Filter [1, 2, 2, 3, 4] (some (fun x => x % 2 == 0))).count 2 = 2 := by
  rw [(Filter_keeps_accepted [1, 2, 2, 3, 4] (fun x => x % 2 == 0)).2.2.2.1 2 (by decide)]
  decide

/-- C20: for `0 <= index < len(s)`, `RemoveIdx(s, index)` has length `len(s)-1`
    and is the elements of `s` before `index` followed by those after it
    (position `i` holds `s[i]` below `index` and `s[i+1]` from `index` on); for
    `index < 0` or `index >= len(s)` the result is `s`. -/
theorem RemoveIdx_removes_position (s : List α) (index : Int) :
    (0 ≤ index ∧ index < s.length →
        (RemoveIdx s index).length = s.length - 1
          ∧ RemoveIdx s index = s.take index.toNat ++ s.drop (index.toNat + 1)
          ∧ ∀ i : Nat, (RemoveIdx s index)[i]?
              = if i < index.toNat then s[i]? else s[i + 1]?)
      ∧ (index < 0 ∨ index ≥ s.length → RemoveIdx s index = s) := by
  constructor
  · rintro ⟨h0, h1⟩
    have hg : ¬ (index < 0 ∨ index ≥ s.length) := by omega
    have e : RemoveIdx s index = s.take index.toNat ++ s.drop (index.toNat + 1) := by
      simp only [RemoveIdx, Copy, if_neg hg]
    have e2 : RemoveIdx s index = s.eraseIdx index.toNat := by
      rw [e, List.eraseIdx_eq_take_drop_succ]
    refine ⟨?_, e, ?_⟩
    · rw [e]
      simp only [List.length_append, List.length_take, List.length_drop]
      omega
    · intro i
      rw [e2, List.getElem?_eraseIdx]
  · intro h
    simp only [RemoveIdx, if_pos h]

/-- C20 (witness): the case `1` of TestRemoveIdx, and an index past the end. -/
theorem RemoveIdx_removes_position_witness :
    ((0 : Int) ≤ 1 ∧ (1 : Int) < ([1, 2, 3, 4, 5] : List Nat).length)
      ∧ RemoveIdx [1, 2, 3, 4, 5] 1 = [1, 3, 4, 5]
      ∧ RemoveIdx [1, 2, 3, 4, 5] 5 = [1, 2, 3, 4, 5] := by
  have h := RemoveIdx_removes_position [1, 2, 3, 4, 5] 1
  have h5 := RemoveIdx_removes_position [1, 2, 3, 4, 5] 5
  exact ⟨by decide, (h.1 (by decide)).2.1.trans (by decide), h5.2 (by decide)⟩

/-- C21: `IndexOf(s, v) = -1` iff `v` does not occur in `s`; otherwise it returns
    the smallest `i` with `s[i] = v` (and `0 <= i < len(s)`); `HasValue(s, v)` is
    true iff `v` occurs in `s`. -/
theorem IndexOf_first_position [DecidableEq α] (s : List α) (v : α) :
    (IndexOf s v = -1 ↔ v ∉ s)
      ∧ (v ∈ s →
          ∃ i : Nat, IndexOf s v = (i : Int) ∧ i < s.length ∧ s[i]? = some v
            ∧ ∀ j : Nat, j < i → s[j]? ≠ some v)
      ∧ (HasValue s v = true ↔ v ∈ s) := by
  refine ⟨IndexOf.loop_eq_neg_one v s 0, ?_, HasValue_iff s v⟩
  intro hv
  obtain ⟨k, h1, h2, h3, h4⟩ := IndexOf.loop_found v s 0 hv
  refine ⟨k, ?_, h2, h3, h4⟩
  unfold IndexOf
  rw [h1]
  simp

/-- C21 (witness): in `[1, 2, 3, 2]` the value 2 is found at position 1, its first
    occurrence. -/
theorem IndexOf_first_position_witness :
    (2 : Nat) ∈ [1, 2, 3, 2]
      ∧ ∃ i : Nat, IndexOf [1, 2, 3, 2] 2 = (i : Int) ∧ i < 4
          ∧ ([1, 2, 3, 2] : List Nat)[i]? = some 2
          ∧ ∀ j : Nat, j < i → ([1, 2, 3, 2] : List Nat)[j]? ≠ some 2 :=
  ⟨by decide, (IndexOf_first_position [1, 2, 3, 2] 2).2.1 (by decide)⟩

/-- C22: on a non-empty sequence `Min(s)` is an element of `s` that is `<=` every
    element of `s`, and `Max(s)` is an element of `s` that is `>=` every element
    of `s`; on the empty sequence both return 0.  Stated for every linearly
    ordered numeric kind, the integers among them. -/
theorem Min_Max_are_extrema {R : Type} [LinearOrder R] [Zero R] (s : List R) :
    (s ≠ [] →
        (Min s ∈ s ∧ ∀ x ∈ s, Min s ≤ x) ∧ (Max s ∈ s ∧ ∀ x ∈ s, x ≤ Max s))
      ∧ Min ([] : List R) = 0 ∧ Max ([] : List R) = 0 := by
  refine ⟨?_, rfl, rfl⟩
  intro hs
  cases s with
  | nil => exact absurd rfl hs
  | cons s0 rest =>
    have hmin : Min (s0 :: rest)
        = (s0 :: rest).foldl (fun result x => if x < result then x else result) s0 := rfl
    have hmax : Max (s0 :: rest)
        = (s0 :: rest).foldl (fun result x => if x > result then x else result) s0 := rfl
    obtain ⟨a1, _, a3⟩ := Min_loop (s0 :: rest) s0
    obtain ⟨b1, _, b3⟩ := Max_loop (s0 :: rest) s0
    rw [hmin, hmax]
    refine ⟨⟨?_, a3⟩, ⟨?_, b3⟩⟩
    · rcases a1 with h | h
      · rw [h]; exact List.mem_cons_self s0 rest
      · exact h
    · rcases b1 with h | h
      · rw [h]; exact List.mem_cons_self s0 rest
      · exact h

/-- C22 (witness): the input of TestMin, as integers: the minimum 1 and the
    maximum 5 are elements of the slice. -/
theorem Min_Max_are_extrema_witness :
    ([3, 4, 1, 5, 2] : List Int) ≠ []
      ∧ Min ([3, 4, 1, 5, 2] : List Int) ∈ ([3, 4, 1, 5, 2] : List Int)
      ∧ Max ([3, 4, 1, 5, 2] : List Int) ∈ ([3, 4, 1, 5, 2] : List Int)
      ∧ Min ([3, 4, 1, 5, 2] : List Int) ≤ 3 ∧ (3 : Int) ≤ Max ([3, 4, 1, 5, 2] : List Int) := by
  have h := (Min_Max_are_extrema ([3, 4, 1, 5, 2] : List Int)).1 (by decide)
  exact ⟨by decide, h.1.1, h.2.1, h.1.2 3 (by decide), h.2.2 3 (by decide)⟩

/-- C24: for every sequence `s` and every integer `partSize`, every call
    `SafeSlice(s, from, to)` that `Split(s, partSize)` makes has
    `0 <= from <= min(to, len(s))`; each of them returns, the values returned are
    the chunks in order, and `Split` itself returns (no range fault). -/
theorem Split_calls_in_bounds (s : List α) (partSize : Int) :
    (∀ c ∈ Split.calls s partSize, 0 ≤ c.1 ∧ c.1 ≤ min c.2 (s.length : Int))
      ∧ ∃ chunks, Split s partSize = some chunks
          ∧ (Split.calls s partSize).map (fun c => SafeSlice s c.1 c.2) = chunks.map some := by
  by_cases hg : partSize ≤ 0 ∨ s.length = 0
  · have hc : Split.calls s partSize = [] := by
      unfold Split.calls
      rw [if_pos hg]
    have hsp : Split s partSize = some [] := by
      unfold Split
      rw [if_pos hg]
    rw [hc]
    exact ⟨fun c h => absurd h (List.not_mem_nil c), [], hsp, rfl⟩
  · have hpos : 0 < partSize := by omega
    have hs : s ≠ [] := by
      intro e
      exact hg (Or.inr (by simp [e]))
    obtain ⟨p, hp⟩ := Int.eq_ofNat_of_zero_le (le_of_lt hpos)
    subst hp
    have hp0 : 0 < p := by exact_mod_cast hpos
    obtain ⟨n, hn0, h1, h2, hn, heq⟩ := Split_eq_chunks s p hp0 hs
    by_cases hle : (s.length : Int) ≤ (p : Int)
    · have hc : Split.calls s (p : Int) = [((0 : Int), (s.length : Int))] := by
        unfold Split.calls
        rw [if_neg hg, if_pos hle]
      have hss : SafeSlice s 0 (s.length : Int) = some s := by
        simp [SafeSlice, Copy]
      have hsp : Split s (p : Int) = some [s] := by
        unfold Split
        rw [if_neg hg, if_pos hle, hss]
      rw [hc]
      refine ⟨?_, [s], hsp, by simp [hss]⟩
      intro c hcmem
      rw [List.mem_singleton] at hcmem
      subst hcmem
      simp
    · have hc : Split.calls s (p : Int)
          = (List.range n).map
              (fun (i : Nat) => ((i : Int) * (p : Int), ((i : Int) + 1) * (p : Int))) := by
        unfold Split.calls
        rw [if_neg hg, if_neg hle]
        simp only [← hn, Int.toNat_ofNat]
      have hbound : ∀ i, i < n → i * p ≤ s.length := by
        intro i hi
        have : i * p ≤ (n - 1) * p := Nat.mul_le_mul_right p (by omega)
        omega
      rw [hc]
      refine ⟨?_, _, heq, ?_⟩
      · intro c hcmem
        obtain ⟨i, hi, rfl⟩ := List.mem_map.mp hcmem
        have hin : i < n := List.mem_range.mp hi
        have hb := hbound i hin
        have e1 : (i : Int) * (p : Int) = ((i * p : Nat) : Int) := by push_cast; ring
        have e2 : ((i : Int) + 1) * (p : Int) = ((i * p + p : Nat) : Int) := by
          push_cast; ring
        simp only [e1, e2]
        omega
      · rw [List.map_map, List.map_map, List.range_eq_range']
        apply List.map_congr_left
        intro i hi
        have hin : i < n := by
          have := List.mem_range'.mp hi
          omega
        simp only [Function.comp]
        exact SafeSlice_chunk s p i (hbound i hin)

/-- C25: when `s` and every sequence in `others` contain no duplicates,
    `Merge(s, others...)` contains no duplicates; it is `Unique` of all inputs laid
    end to end, so a value repeated across inputs appears once, at the position
    of its first occurrence. -/
theorem Merge_nodup_of_nodup_inputs [DecidableEq α] (s : List α) (others : List (List α))
    (hs : s.Nodup) (ho : ∀ o ∈ others, o.Nodup) :
    (Merge s others).Nodup ∧ Merge s others = Unique (s ++ others.flatten) := by
  have h : Merge s others = Unique (s ++ others.flatten) := by
    rw [Merge_eq_MergeFold]
    exact MergeFold_eq_Unique others s hs ho
  rw [h]
  exact ⟨nodup_Unique _, rfl⟩

/-- C25 (witness): the inputs of TestMerge, `Merge([1], [2,3], [1,3])`. -/
theorem Merge_nodup_of_nodup_inputs_witness :
    ([1] : List Nat).Nodup ∧ (∀ o ∈ ([[2, 3], [1, 3]] : List (List Nat)), o.Nodup)
      ∧ (Merge [1] [[2, 3], [1, 3]]).Nodup
      ∧ Merge [1] [[2, 3], [1, 3]] = [1, 2, 3] := by
  have h := Merge_nodup_of_nodup_inputs [1] [[2, 3], [1, 3]] (by decide) (by decide)
  exact ⟨by decide, by decide, h.1, by decide⟩

/-! ### Further properties -/

/-- Range returns the empty slice, without a panic and whatever the fuel, in the
    three cases its guard names: `step = 0`, `start = stop`, and a descending
    range with a positive step. -/
theorem Range_guarded_is_empty (fuel : Nat) (start stop step : Int)
    (h : step = 0 ∨ start = stop ∨ (start > stop ∧ step > 0)) :
    Range fuel start stop step = Outcome.value [] := by
  unfold Range
  rw [if_pos h]

/-- Range(3, 0, 1), the `impossible` case of TestRange, is empty. -/
theorem Range_guarded_is_empty_witness :
    Range 0 3 0 1 = Outcome.value [] :=
  Range_guarded_is_empty 0 3 0 1 (by decide)

/-- Intersect leaves in the caller's `others` the sequences it held before the
    call, possibly in another order. -/
theorem Intersect_permutes_others [DecidableEq α] (srt : SliceSorter α) (s : List α)
    (others : List (List α)) : (Intersect srt s others).2.Perm others := by
  unfold Intersect
  by_cases h0 : others.length = 0
  · rw [if_pos h0]
  · rw [if_neg h0]
    have hp := srt.perm others
    simp only
    split
    · exact hp
    · rename_i o0 tl heq
      by_cases hl : o0.length = 0
      · rw [if_pos hl]
        exact hp
      · rw [if_neg hl]
        exact hp

/-- In an integer kind, invocation number `n >= 1` of the producer returned by
    `SequenceGenerator(start, step)` returns `start + (n-1)*step` (the first call
    returns `start`), and what one producer returns does not depend on the calls
    made to other producers: in any run over producers made by
    `SequenceGenerator(starts p, steps p)`, call `k` of the run, made to producer
    `p`, returns `starts p + j * steps p` with `j` the number of earlier calls to
    `p`.  Stated over any commutative ring `R`: the integers, or a fixed-width integer kind
    with its wrap-around. -/
theorem SequenceGenerator_nth_call {R : Type} [CommRing R] (start step : R)
    (starts steps : Nat → R) (calls : List Nat) :
    (∀ n : Nat, 1 ≤ n →
        (runCalls (fun _ => SequenceGenerator start step) (List.replicate n 0))[n - 1]?
          = some (start + ((n : R) - 1) * step))
      ∧ (Producer.call (SequenceGenerator start step)).1 = start
      ∧ ∀ k : Nat,
          (runCalls (fun p => SequenceGenerator (starts p) (steps p)) calls)[k]?
            = (calls[k]?).map
                (fun p => starts p + (((calls.take k).count p : Nat) : R) * steps p) := by
  have key : ∀ (st sp : Nat → R) (cs : List Nat) (k : Nat),
      (runCalls (fun p => SequenceGenerator (st p) (sp p)) cs)[k]?
        = (cs[k]?).map (fun p => st p + (((cs.take k).count p : Nat) : R) * sp p) := by
    intro st sp cs k
    have h := runCalls_from st sp cs (fun _ => 0) k
    simpa [SequenceGenerator] using h
  refine ⟨?_, ?_, key starts steps calls⟩
  · intro n hn
    rw [key (fun _ => start) (fun _ => step) (List.replicate n 0) (n - 1)]
    have h1 : (List.replicate n 0)[n - 1]? = some 0 := by
      rw [List.getElem?_replicate]
      simp
      omega
    have h2 : ((List.replicate n 0).take (n - 1)).count 0 = n - 1 := by
      rw [List.take_replicate, List.count_replicate_self]
      omega
    rw [h1, Option.map_some', h2]
    congr 2
    rw [Nat.cast_sub hn]
    simp
  · simp [Producer.call, SequenceGenerator]

/-- TestSequenceGenerator: `SequenceGenerator(0, 1)` invoked 3 times; the third call
    returns 2 (TestSequenceGenerator). -/
theorem SequenceGenerator_nth_call_witness :
    1 ≤ 3
      ∧ (runCalls (fun _ => SequenceGenerator (0 : Int) 1) (List.replicate 3 0))[3 - 1]?
          = some 2 := by
  refine ⟨by decide, ?_⟩
  have h := (SequenceGenerator_nth_call (0 : Int) 1 (fun _ => 0) (fun _ => 1) []).1 3
    (by decide)
  rw [h]
  norm_num

end slices

namespace sets

variable {α : Type}

/-! ## Theorems (sets/set.go) -/

/-! ### Helper lemmas -/

/-- Some value of the list is equal (Go's `==`) to `w`. -/
theorem any_eq_iff [Comparable α] (l : List α) (w : α) :
    l.any (fun k => Comparable.eq k w) = true ↔ ∃ k ∈ l, Comparable.eq k w = true := by
  simp [List.any_eq_true]

/-- Equal values are equal to the same values. -/
theorem eq_congr_right [Comparable α] (k v w : α) (hvw : Comparable.eq v w = true) :
    Comparable.eq k v = Comparable.eq k w := by
  rw [Bool.eq_iff_iff]
  constructor
  · intro h
    exact Comparable.trans k v w h hvw
  · intro h
    exact Comparable.trans k w v h (Comparable.symm v w hvw)

/-- Looking up equal values gives the same answer. -/
theorem any_congr [Comparable α] (l : List α) (v w : α) (hvw : Comparable.eq v w = true) :
    l.any (fun k => Comparable.eq k v) = l.any (fun k => Comparable.eq k w) := by
  congr 1
  funext k
  exact eq_congr_right k v w hvw

/-- The keys after `s[v] = struct{}{}`. -/
theorem Table.has_put [Comparable α] (t : Table α) (v w : α) :
    (t.put v).has w = true ↔ t.has w = true ∨ Comparable.eq v w = true := by
  unfold Table.put
  by_cases h : t.has v = true
  · rw [dif_pos h]
    unfold Table.has at h ⊢
    rw [any_eq_iff] at h
    obtain ⟨k0, hk0, hk0v⟩ := h
    rw [any_eq_iff, any_eq_iff]
    simp only [List.mem_map, exists_exists_and_eq_and]
    constructor
    · rintro ⟨k, hk, hkw⟩
      by_cases hkv : Comparable.eq k v = true
      · rw [if_pos hkv] at hkw
        exact Or.inr hkw
      · rw [if_neg hkv] at hkw
        exact Or.inl ⟨k, hk, hkw⟩
    · rintro (⟨k, hk, hkw⟩ | hvw)
      · refine ⟨k, hk, ?_⟩
        by_cases hkv : Comparable.eq k v = true
        · rw [if_pos hkv]
          exact Comparable.trans v k w (Comparable.symm k v hkv) hkw
        · rw [if_neg hkv]
          exact hkw
      · refine ⟨k0, hk0, ?_⟩
        rw [if_pos hk0v]
        exact hvw
  · rw [dif_neg h]
    unfold Table.has
    simp only [List.any_append, List.any_cons, List.any_nil, Bool.or_false, Bool.or_eq_true]

/-- The keys after `delete(s, v)`. -/
theorem Table.has_remove [Comparable α] (t : Table α) (v w : α) :
    (t.remove v).has w = true ↔ t.has w = true ∧ Comparable.eq v w = false := by
  unfold Table.remove Table.has
  simp only
  rw [any_eq_iff, any_eq_iff]
  constructor
  · rintro ⟨k, hk, hkw⟩
    obtain ⟨hk1, hk2⟩ := List.mem_filter.mp hk
    refine ⟨⟨k, hk1, hkw⟩, ?_⟩
    cases hvw : Comparable.eq v w with
    | false => rfl
    | true =>
      have : Comparable.eq k v = true :=
        Comparable.trans k w v hkw (Comparable.symm v w hvw)
      simp [this] at hk2
  · rintro ⟨⟨k, hk, hkw⟩, hvw⟩
    refine ⟨k, List.mem_filter.mpr ⟨hk, ?_⟩, hkw⟩
    cases hkv : Comparable.eq k v with
    | false => rfl
    | true =>
      have : Comparable.eq v w = true :=
        Comparable.trans v k w (Comparable.symm k v hkv) hkw
      rw [this] at hvw
      cases hvw

/-- Reading the heap after one table was replaced. -/
theorem Heap.table_write [Comparable α] (h : Heap α) (s r : Ref) (t : Table α) :
    (h.write s t).table r = if r = s then t else h.table r := by
  unfold Heap.write
  by_cases hr : r = s
  · subst hr; simp
  · simp [hr]

/-- `Has` looks the value up among the keys the set holds. -/
theorem Has_eq_any [Comparable α] (h : Heap α) (s : SetVal) (v : α) :
    Has h s v = (h.keysOf s).any (fun k => Comparable.eq k v) := by
  cases s with
  | none => rfl
  | some r => rfl

/-- `Has` gives the same answer on equal values. -/
theorem Has_congr [Comparable α] (h : Heap α) (s : SetVal) (v w : α)
    (hvw : Comparable.eq v w = true) : Has h s v = Has h s w := by
  rw [Has_eq_any, Has_eq_any]
  exact any_congr _ v w hvw

/-- The nil map holds nothing. -/
theorem Has_nil [Comparable α] (h : Heap α) (v : α) : Has h none v = false := rfl

/-- One assignment: a panic exactly on the nil map; otherwise the receiver gains
    the value and every other set is as before. -/
theorem Has_assign [Comparable α] (h h1 : Heap α) (s : SetVal) (v : α)
    (ha : assign h s v = some h1) (r : SetVal) (w : α) :
    Has h1 r w = true ↔ Has h r w = true ∨ (r = s ∧ Comparable.eq v w = true) := by
  cases s with
  | none => cases ha
  | some a =>
    simp only [assign, Option.some.injEq] at ha
    subst ha
    cases r with
    | none => simp [Has]
    | some b =>
      simp only [Has, Heap.table_write, Option.some.injEq]
      by_cases hb : b = a
      · subst hb
        simp only [if_true, true_and]
        exact Table.has_put _ v w
      · simp [hb]

/-- After an `Add` that returns, the receiver has gained the values; every other
    set is as before. -/
theorem Has_Add [Comparable α] (s : SetVal) (values : List α) :
    ∀ (h h1 : Heap α), Add h s values = some h1 → ∀ (r : SetVal) (w : α),
      (Has h1 r w = true
        ↔ Has h r w = true ∨ (r = s ∧ values.any (fun x => Comparable.eq x w) = true)) := by
  induction values with
  | nil =>
    intro h h1 ha r w
    simp only [Add, Add.loop, Option.some.injEq] at ha
    subst ha
    simp
  | cons v vs ih =>
    intro h h1 ha r w
    simp only [Add, Add.loop] at ha
    cases hs : assign h s v with
    | none => rw [hs] at ha; cases ha
    | some h2 =>
      rw [hs] at ha
      have h3 := ih h2 h1 ha r w
      rw [h3, Has_assign h h2 s v hs r w]
      simp only [List.any_cons, Bool.or_eq_true]
      tauto

/-- `Add` returns on every allocated set, and on the nil map when there is
    nothing to add; it panics on the nil map when there is a value to add. -/
theorem Add_returns [Comparable α] (s : SetVal) (values : List α) :
    ∀ h : Heap α, (Add h s values = none ↔ s = none ∧ values ≠ []) := by
  induction values with
  | nil => intro h; simp [Add, Add.loop]
  | cons v vs ih =>
    intro h
    cases s with
    | none => simp [Add, Add.loop, assign]
    | some a =>
      have := ih (h.write a ((h.table a).put v))
      simp only [Add] at this
      simp only [Add, Add.loop, assign, this]
      simp

/-- After `Delete`, the receiver has lost the values; every other set is as
    before. -/
theorem Has_Delete [Comparable α] (s : SetVal) (values : List α) :
    ∀ (h : Heap α) (r : SetVal) (w : α),
      Has (Delete h s values) r w = true
        ↔ Has h r w = true
            ∧ ¬ (r = s ∧ values.any (fun x => Comparable.eq x w) = true) := by
  induction values with
  | nil => intro h r w; simp [Delete]
  | cons v vs ih =>
    intro h r w
    cases s with
    | none =>
      have e : Delete h none (v :: vs) = Delete h none vs := rfl
      rw [e, ih]
      cases r with
      | none => simp [Has]
      | some b => simp
    | some a =>
      have e : Delete h (some a) (v :: vs)
          = Delete (h.write a ((h.table a).remove v)) (some a) vs := rfl
      rw [e, ih]
      cases r with
      | none => simp [Has]
      | some b =>
        simp only [Has, Heap.table_write, Option.some.injEq, List.any_cons, Bool.or_eq_true]
        by_cases hb : b = a
        · subst hb
          simp only [if_true, true_and, Table.has_remove]
          cases hvw : Comparable.eq v w <;> simp
        · simp [hb]

/-- A loop that appends `g v` for each `v` builds `map g`. -/
theorem foldl_append_singleton {β : Type} (g : α → β) (l : List α) :
    ∀ acc : List β, l.foldl (fun values v => values ++ [g v]) acc = acc ++ l.map g := by
  induction l with
  | nil => intro acc; simp
  | cons x xs ih => intro acc; simp [ih]

/-- `Values` delivers the keys of the table, rearranged by the iteration order. -/
theorem Values_eq [Comparable α] (it : IterOrder α) (h : Heap α) (s : SetVal) :
    Values it h s = it.order (h.keysOf s) := by
  unfold Values
  rw [foldl_append_singleton (fun v => v)]
  simp

/-- A value is equal to one of the `Values` exactly when the set has it. -/
theorem any_Values [Comparable α] (it : IterOrder α) (h : Heap α) (s : SetVal) (w : α) :
    (Values it h s).any (fun x => Comparable.eq x w) = Has h s w := by
  rw [Values_eq, Has_eq_any, Bool.eq_iff_iff, any_eq_iff, any_eq_iff]
  constructor
  · rintro ⟨k, hk, hkw⟩
    exact ⟨k, (it.perm _).mem_iff.mp hk, hkw⟩
  · rintro ⟨k, hk, hkw⟩
    exact ⟨k, (it.perm _).mem_iff.mpr hk, hkw⟩

/-- `Merge` that returns, whatever the aliasing between `s` and the others: `s`
    gains what the others held, every other set is as before. -/
theorem Has_Merge [Comparable α] (it : IterOrder α) (s : SetVal) (others : List SetVal) :
    ∀ (h h1 : Heap α), Merge it h s others = some h1 → ∀ (r : SetVal) (w : α),
      (Has h1 r w = true
        ↔ Has h r w = true ∨ (r = s ∧ ∃ o ∈ others, Has h o w = true)) := by
  induction others with
  | nil =>
    intro h h1 hm r w
    simp only [Merge, Merge.loop, Option.some.injEq] at hm
    subst hm
    simp
  | cons o os ih =>
    intro h h1 hm r w
    simp only [Merge, Merge.loop] at hm
    cases ha : Add h s (Values it h o) with
    | none => rw [ha] at hm; cases hm
    | some h2 =>
      rw [ha] at hm
      have hA := Has_Add s (Values it h o) h h2 ha
      rw [ih h2 h1 hm r w]
      simp only [hA, any_Values, List.mem_cons, exists_eq_or_imp]
      constructor
      · rintro ((h3 | ⟨h3, h4⟩) | ⟨h3, o', ho', (h5 | ⟨_, h6⟩)⟩)
        · exact Or.inl h3
        · exact Or.inr ⟨h3, Or.inl h4⟩
        · exact Or.inr ⟨h3, Or.inr ⟨o', ho', h5⟩⟩
        · exact Or.inr ⟨h3, Or.inl h6⟩
      · rintro (h3 | ⟨h3, (h4 | ⟨o', ho', h5⟩)⟩)
        · exact Or.inl (Or.inl h3)
        · exact Or.inl (Or.inr ⟨h3, h4⟩)
        · exact Or.inr ⟨h3, o', ho', Or.inl h5⟩

/-- On an allocated receiver `Merge` returns. -/
theorem Merge_returns_of_allocated [Comparable α] (it : IterOrder α) (a : Ref)
    (others : List SetVal) :
    ∀ h : Heap α, ∃ h1, Merge it h (some a) others = some h1 := by
  induction others with
  | nil => intro h; exact ⟨h, rfl⟩
  | cons o os ih =>
    intro h
    cases ha : Add h (some a) (Values it h o) with
    | none =>
      have := (Add_returns (some a) (Values it h o) h).mp ha
      exact absurd this.1 (by simp)
    | some h2 =>
      obtain ⟨h1, hh1⟩ := ih h2
      refine ⟨h1, ?_⟩
      simp only [Merge, Merge.loop, ha]
      exact hh1

/-- On the nil receiver `Merge` panics exactly when some other holds a key;
    otherwise it returns the heap unchanged. -/
theorem Merge_nil [Comparable α] (it : IterOrder α) (others : List SetVal) (h : Heap α) :
    (Merge it h none others = none ↔ ∃ o ∈ others, Len h o ≠ 0)
      ∧ ((∀ o ∈ others, Len h o = 0) → Merge it h none others = some h) := by
  induction others with
  | nil => simp [Merge, Merge.loop]
  | cons o os ih =>
    have hval : Values it h o = [] ↔ Len h o = 0 := by
      rw [Values_eq, Len]
      constructor
      · intro e
        have := (it.perm (h.keysOf o)).length_eq
        rw [e] at this
        simpa using this.symm
      · intro e
        have := (it.perm (h.keysOf o)).length_eq
        rw [e] at this
        exact List.length_eq_zero.mp this
    by_cases hl : Len h o = 0
    · have hv := hval.mpr hl
      have e : Merge it h none (o :: os) = Merge it h none os := by
        simp only [Merge, Merge.loop, hv, Add, Add.loop]
      rw [e]
      constructor
      · rw [ih.1]
        simp [hl]
      · intro hall
        exact ih.2 (fun o' ho' => hall o' (List.mem_cons_of_mem o ho'))
    · have hv : Values it h o ≠ [] := fun e => hl (hval.mp e)
      have ha : Add h none (Values it h o) = none :=
        (Add_returns none (Values it h o) h).mpr ⟨rfl, hv⟩
      have e : Merge it h none (o :: os) = none := by
        simp only [Merge, Merge.loop, ha]
      rw [e]
      constructor
      · constructor
        · intro _
          exact ⟨o, List.mem_cons_self o os, hl⟩
        · intro _
          rfl
      · intro hall
        exact absurd (hall o (List.mem_cons_self o os)) hl

/-- One guarded `s.Delete(v)`. -/
theorem Has_cond_Delete [Comparable α] (c : Bool) (h : Heap α) (s r : SetVal) (v w : α) :
    Has (if c = true then Delete h s [v] else h) r w = true
      ↔ Has h r w = true ∧ ¬ (c = true ∧ r = s ∧ Comparable.eq v w = true) := by
  cases c with
  | false => simp
  | true => simp [Has_Delete]

/-- The loop of `Diff` over the values `vs`: a value of `vs` that `o0` holds when
    its turn comes is deleted from `s`; stated on the heap the loop starts from,
    whatever the aliasing between `s` and `o0`. -/
theorem Has_Diff_loop [Comparable α] (s o0 : SetVal) (vs : List α) :
    ∀ (h : Heap α) (r : SetVal) (w : α),
      Has (vs.foldl (fun h v => if Has h o0 v then Delete h s [v] else h) h) r w = true
        ↔ Has h r w = true
            ∧ ¬ (r = s ∧ vs.any (fun x => Comparable.eq x w) = true ∧ Has h o0 w = true) := by
  induction vs with
  | nil => intro h r w; simp
  | cons v vs ih =>
    intro h r w
    rw [List.foldl_cons, ih]
    simp only [Has_cond_Delete, List.any_cons, Bool.or_eq_true]
    cases hq : Comparable.eq v w with
    | true =>
      have hc : Has h o0 v = Has h o0 w := Has_congr h o0 v w hq
      rw [hc]
      tauto
    | false => simp

/-- The inner loop of `Intersect` for one value `v`: `v` is deleted from `s` when
    some other lacks it. -/
theorem Has_Intersect_inner [Comparable α] (s : SetVal) (v : α) (os : List SetVal) :
    ∀ (h : Heap α) (r : SetVal) (w : α),
      Has (os.foldl (fun h o => if !Has h o v then Delete h s [v] else h) h) r w = true
        ↔ Has h r w = true
            ∧ ¬ (r = s ∧ Comparable.eq v w = true ∧ ∃ o ∈ os, Has h o v = false) := by
  induction os with
  | nil => intro h r w; simp
  | cons o os ih =>
    intro h r w
    rw [List.foldl_cons, ih]
    simp only [List.mem_cons, exists_eq_or_imp]
    by_cases hov : Has h o v = true
    · have hstep : (if (!Has h o v) = true then Delete h s [v] else h) = h := by
        simp [hov]
      rw [hstep]
      simp [hov]
    · simp only [Bool.not_eq_true] at hov
      have hstep : (if (!Has h o v) = true then Delete h s [v] else h) = Delete h s [v] := by
        simp [hov]
      rw [hstep]
      simp only [Has_Delete, List.any_cons, List.any_nil, Bool.or_false, hov, true_or,
        and_true]
      tauto

/-- The loop of `Intersect` over the values `vs`, whatever the aliasing. -/
theorem Has_Intersect_loop [Comparable α] (s : SetVal) (others : List SetVal)
    (vs : List α) :
    ∀ (h : Heap α) (r : SetVal) (w : α),
      Has (vs.foldl
          (fun h v => others.foldl (fun h o => if !Has h o v then Delete h s [v] else h) h)
          h) r w = true
        ↔ Has h r w = true
            ∧ ¬ (r = s ∧ vs.any (fun x => Comparable.eq x w) = true
                ∧ ∃ o ∈ others, Has h o w = false) := by
  induction vs with
  | nil => intro h r w; simp
  | cons v vs ih =>
    intro h r w
    rw [List.foldl_cons, ih]
    simp only [List.any_cons, Bool.or_eq_true]
    cases hq : Comparable.eq v w with
    | true =>
      have hE : (∃ o ∈ others, Has h o v = false) ↔ ∃ o ∈ others, Has h o w = false := by
        constructor
        · rintro ⟨o, ho, hf⟩
          exact ⟨o, ho, by rw [← Has_congr h o v w hq]; exact hf⟩
        · rintro ⟨o, ho, hf⟩
          exact ⟨o, ho, by rw [Has_congr h o v w hq]; exact hf⟩
      by_cases hEw : ∃ o ∈ others, Has h o w = false
      · have h1 : ∀ r, Has (others.foldl
            (fun h o => if !Has h o v then Delete h s [v] else h) h) r w = true
              ↔ Has h r w = true ∧ ¬ r = s := by
          intro r
          rw [Has_Intersect_inner]
          simp [hq, hE, hEw]
        simp only [h1, true_or, true_and]
        constructor
        · rintro ⟨⟨ha, hb⟩, _⟩
          exact ⟨ha, fun hc => hb hc.1⟩
        · rintro ⟨ha, hb⟩
          have hrs : ¬ r = s := fun e => hb ⟨e, hEw⟩
          exact ⟨⟨ha, hrs⟩, fun hc => hrs hc.1⟩
      · have h1 : ∀ r, Has (others.foldl
            (fun h o => if !Has h o v then Delete h s [v] else h) h) r w = true
              ↔ Has h r w = true := by
          intro r
          rw [Has_Intersect_inner]
          simp [hq, hE, hEw]
        have h2 : ∀ r, Has (others.foldl
            (fun h o => if !Has h o v then Delete h s [v] else h) h) r w = false
              ↔ Has h r w = false := by
          intro r
          rw [← Bool.not_eq_true, ← Bool.not_eq_true, h1]
        simp only [h1, h2, true_or, true_and]
        constructor
        · rintro ⟨ha, _⟩
          exact ⟨ha, fun hc => hEw hc.2⟩
        · rintro ⟨ha, _⟩
          exact ⟨ha, fun hc => hEw hc.2.2⟩
    | false =>
      have h1 : ∀ r, Has (others.foldl
          (fun h o => if !Has h o v then Delete h s [v] else h) h) r w = true
            ↔ Has h r w = true := by
        intro r
        rw [Has_Intersect_inner]
        simp [hq]
      have h2 : ∀ r, Has (others.foldl
          (fun h o => if !Has h o v then Delete h s [v] else h) h) r w = false
            ↔ Has h r w = false := by
        intro r
        rw [← Bool.not_eq_true, ← Bool.not_eq_true, h1]
      simp only [h1, h2, Bool.false_eq_true, false_or]

/-- `Diff` with at least one other returns exactly when the merge of the rest into
    the first other returns; then `s` loses the values the first other holds
    after that merge, and no other set changes after it. -/
theorem Diff_cons [Comparable α] (it : IterOrder α) (h : Heap α) (s o0 : SetVal)
    (rest : List SetVal) :
    (Diff it h s (o0 :: rest) = none ↔ Merge it h o0 rest = none)
      ∧ ∀ h2, Diff it h s (o0 :: rest) = some h2 →
          ∃ h1, Merge it h o0 rest = some h1
            ∧ ∀ (r : SetVal) (w : α),
                (Has h2 r w = true
                  ↔ Has h1 r w = true ∧ ¬ (r = s ∧ Has h1 o0 w = true)) := by
  cases hm : Merge it h o0 rest with
  | none =>
    have e : Diff it h s (o0 :: rest) = none := by
      simp only [Diff, hm]
    rw [e]
    exact ⟨Iff.rfl, fun h2 hc => by cases hc⟩
  | some h1 =>
    have e : Diff it h s (o0 :: rest)
        = some ((Values it h1 s).foldl
            (fun h v => if Has h o0 v then Delete h s [v] else h) h1) := by
      simp only [Diff, hm]
    rw [e]
    refine ⟨by simp, ?_⟩
    intro h2 hh2
    simp only [Option.some.injEq] at hh2
    subst hh2
    refine ⟨h1, rfl, ?_⟩
    intro r w
    rw [Has_Diff_loop, any_Values]
    constructor
    · rintro ⟨ha, hb⟩
      refine ⟨ha, ?_⟩
      rintro ⟨hr, hc⟩
      subst hr
      exact hb ⟨rfl, ha, hc⟩
    · rintro ⟨ha, hb⟩
      exact ⟨ha, fun hc => hb ⟨hc.1, hc.2.2⟩⟩

/-- What `s` holds after a `Diff` that returns, in terms of the heap before the
    call; holds also when `s` is one of the others. -/
theorem Has_Diff_self [Comparable α] (it : IterOrder α) (h h2 : Heap α) (s : SetVal)
    (others : List SetVal) (hd : Diff it h s others = some h2) (v : α) :
    Has h2 s v = true ↔ Has h s v = true ∧ ∀ o ∈ others, Has h o v = false := by
  cases others with
  | nil =>
    simp only [Diff, Option.some.injEq] at hd
    subst hd
    simp
  | cons o0 rest =>
    obtain ⟨h1, hm, hh⟩ := (Diff_cons it h s o0 rest).2 h2 hd
    have hM := Has_Merge it o0 rest h h1 hm
    rw [hh]
    by_cases hs : s = o0
    · subst hs
      constructor
      · rintro ⟨ha, hb⟩
        exact absurd ⟨rfl, ha⟩ hb
      · rintro ⟨ha, hb⟩
        have h3 := hb s (List.mem_cons_self s rest)
        rw [ha] at h3
        cases h3
    · simp only [hM, true_and, List.mem_cons, forall_eq_or_imp, ← Bool.not_eq_true]
      constructor
      · rintro ⟨(ha | ⟨ha, _⟩), hb⟩
        · exact ⟨ha, fun hc => hb (Or.inl hc), fun o ho hc => hb (Or.inr ⟨o, ho, hc⟩)⟩
        · exact absurd ha hs
      · rintro ⟨ha, hb, hc⟩
        refine ⟨Or.inl ha, ?_⟩
        rintro (hd1 | ⟨o, ho, hd2⟩)
        · exact hb hd1
        · exact hc o ho hd2

/-- What a set other than `s` holds after a `Diff` that returns: `others[0]` has
    absorbed `others[1:]`, every further set is as before. -/
theorem Has_Diff_other [Comparable α] (it : IterOrder α) (h h2 : Heap α) (s o0 : SetVal)
    (rest : List SetVal) (hd : Diff it h s (o0 :: rest) = some h2) (r : SetVal)
    (hr : r ≠ s) (w : α) :
    Has h2 r w = true ↔ Has h r w = true ∨ (r = o0 ∧ ∃ o ∈ rest, Has h o w = true) := by
  obtain ⟨h1, hm, hh⟩ := (Diff_cons it h s o0 rest).2 h2 hd
  rw [hh, Has_Merge it o0 rest h h1 hm]
  simp [hr]

/-- The loop of `Equals` answers whether `other` has every value of the list. -/
theorem Equals.loop_eq_true [Comparable α] (h : Heap α) (other : SetVal) (vs : List α) :
    Equals.loop h other vs = true ↔ ∀ v ∈ vs, Has h other v = true := by
  induction vs with
  | nil => simp [Equals.loop]
  | cons v vs ih =>
    simp only [Equals.loop, List.mem_cons, forall_eq_or_imp]
    cases hv : Has h other v with
    | false => simp
    | true => simpa using ih

/-- When every key of `l1` has an equal key in `l2` and `l2` is not longer than
    `l1`, every key of `l2` has an equal key in `l1` (keys pairwise unequal). -/
theorem matched_both_ways [Comparable α] :
    ∀ (l1 l2 : List α),
      l1.Pairwise (fun x y => Comparable.eq x y = false) →
      l2.Pairwise (fun x y => Comparable.eq x y = false) →
      (∀ k ∈ l1, ∃ k' ∈ l2, Comparable.eq k' k = true) →
      l2.length ≤ l1.length →
      ∀ k' ∈ l2, ∃ k ∈ l1, Comparable.eq k k' = true := by
  intro l1
  induction l1 with
  | nil =>
    intro l2 _ _ _ hlen k' hk'
    have : l2 = [] := List.length_eq_zero.mp (by simpa using hlen)
    rw [this] at hk'
    cases hk'
  | cons a l1 ih =>
    intro l2 h1 h2 hmatch hlen k' hk'
    obtain ⟨ha, hl1⟩ := List.pairwise_cons.mp h1
    obtain ⟨a', ha', ha'a⟩ := hmatch a (List.mem_cons_self a l1)
    by_cases hk'a : Comparable.eq k' a = true
    · exact ⟨a, List.mem_cons_self a l1, Comparable.symm k' a hk'a⟩
    · have hlt : (l2.filter (fun x => !Comparable.eq x a)).length < l2.length := by
        apply List.length_filter_lt_length_iff_exists.mpr
        exact ⟨a', ha', by simp [ha'a]⟩
      have hmatch' : ∀ k ∈ l1, ∃ k'' ∈ l2.filter (fun x => !Comparable.eq x a),
          Comparable.eq k'' k = true := by
        intro k hk
        obtain ⟨k'', hk'', hk''k⟩ := hmatch k (List.mem_cons_of_mem a hk)
        refine ⟨k'', List.mem_filter.mpr ⟨hk'', ?_⟩, hk''k⟩
        cases hka : Comparable.eq k'' a with
        | false => rfl
        | true =>
          have : Comparable.eq a k = true :=
            Comparable.trans a k'' k (Comparable.symm k'' a hka) hk''k
          rw [ha k hk] at this
          cases this
      have hlen' : (l2.filter (fun x => !Comparable.eq x a)).length ≤ l1.length := by
        simp only [List.length_cons] at hlen
        omega
      have hk'mem : k' ∈ l2.filter (fun x => !Comparable.eq x a) :=
        List.mem_filter.mpr ⟨hk', by simpa using hk'a⟩
      obtain ⟨k, hk, hkk'⟩ := ih _ hl1 (h2.filter _) hmatch' hlen' k' hk'mem
      exact ⟨k, List.mem_cons_of_mem a hk, hkk'⟩

/-- When every key of `l1` has an equal key in `l2`, `l1` is not longer than `l2`
    (keys of `l1` pairwise unequal). -/
theorem matched_length_le [Comparable α] :
    ∀ (l1 l2 : List α),
      l1.Pairwise (fun x y => Comparable.eq x y = false) →
      (∀ k ∈ l1, ∃ k' ∈ l2, Comparable.eq k' k = true) →
      l1.length ≤ l2.length := by
  intro l1
  induction l1 with
  | nil => intro l2 _ _; simp
  | cons a l1 ih =>
    intro l2 h1 hmatch
    obtain ⟨ha, hl1⟩ := List.pairwise_cons.mp h1
    obtain ⟨a', ha', ha'a⟩ := hmatch a (List.mem_cons_self a l1)
    have hlt : (l2.filter (fun x => !Comparable.eq x a)).length < l2.length := by
      apply List.length_filter_lt_length_iff_exists.mpr
      exact ⟨a', ha', by simp [ha'a]⟩
    have hmatch' : ∀ k ∈ l1, ∃ k'' ∈ l2.filter (fun x => !Comparable.eq x a),
        Comparable.eq k'' k = true := by
      intro k hk
      obtain ⟨k'', hk'', hk''k⟩ := hmatch k (List.mem_cons_of_mem a hk)
      refine ⟨k'', List.mem_filter.mpr ⟨hk'', ?_⟩, hk''k⟩
      cases hka : Comparable.eq k'' a with
      | false => rfl
      | true =>
        have : Comparable.eq a k = true :=
          Comparable.trans a k'' k (Comparable.symm k'' a hka) hk''k
        rw [ha k hk] at this
        cases this
    have := ih _ hl1 hmatch'
    simp only [List.length_cons]
    omega

/-- The keys a set holds are pairwise unequal. -/
theorem keysOf_distinct [Comparable α] (h : Heap α) (s : SetVal) :
    (h.keysOf s).Pairwise (fun x y => Comparable.eq x y = false) := by
  cases s with
  | none => exact List.Pairwise.nil
  | some r => exact (h.table r).distinct

/-- `Equals` is true exactly when the two sets have the same elements and
    neither holds a key that is not equal to itself. -/
theorem Equals_iff [Comparable α] (it : IterOrder α) (h : Heap α) (s other : SetVal) :
    Equals it h s other = true
      ↔ (∀ v, Has h s v = Has h other v)
          ∧ (∀ k ∈ h.keysOf s, Comparable.eq k k = true)
          ∧ (∀ k ∈ h.keysOf other, Comparable.eq k k = true) := by
  have hsub : (∀ v ∈ Values it h s, Has h other v = true)
      ↔ ∀ k ∈ h.keysOf s, ∃ k' ∈ h.keysOf other, Comparable.eq k' k = true := by
    rw [Values_eq]
    constructor
    · intro hv k hk
      have := hv k ((it.perm _).mem_iff.mpr hk)
      rw [Has_eq_any, any_eq_iff] at this
      exact this
    · intro hk v hv
      rw [Has_eq_any, any_eq_iff]
      exact hk v ((it.perm _).mem_iff.mp hv)
  unfold Equals
  constructor
  · intro he
    by_cases hl : Len h s ≠ Len h other
    · rw [if_pos hl] at he
      cases he
    · rw [if_neg hl, Equals.loop_eq_true, hsub] at he
      have hl2 : (h.keysOf s).length = (h.keysOf other).length := by
        simpa [Len] using hl
      have hback := matched_both_ways (h.keysOf s) (h.keysOf other) (keysOf_distinct h s)
        (keysOf_distinct h other) he (by omega)
      refine ⟨?_, ?_, ?_⟩
      · intro v
        rw [Bool.eq_iff_iff, Has_eq_any, Has_eq_any, any_eq_iff, any_eq_iff]
        constructor
        · rintro ⟨k, hk, hkv⟩
          obtain ⟨k', hk', hk'k⟩ := he k hk
          exact ⟨k', hk', Comparable.trans k' k v hk'k hkv⟩
        · rintro ⟨k', hk', hk'v⟩
          obtain ⟨k, hk, hkk'⟩ := hback k' hk'
          exact ⟨k, hk, Comparable.trans k k' v hkk' hk'v⟩
      · intro k hk
        obtain ⟨k', _, hk'k⟩ := he k hk
        exact Comparable.trans k k' k (Comparable.symm k' k hk'k) hk'k
      · intro k' hk'
        obtain ⟨k, _, hkk'⟩ := hback k' hk'
        exact Comparable.trans k' k k' (Comparable.symm k k' hkk') hkk'
  · rintro ⟨hsame, hrs, hro⟩
    have hm1 : ∀ k ∈ h.keysOf s, ∃ k' ∈ h.keysOf other, Comparable.eq k' k = true := by
      intro k hk
      have hks : Has h s k = true := by
        rw [Has_eq_any, any_eq_iff]
        exact ⟨k, hk, hrs k hk⟩
      rw [hsame k, Has_eq_any, any_eq_iff] at hks
      exact hks
    have hm2 : ∀ k ∈ h.keysOf other, ∃ k' ∈ h.keysOf s, Comparable.eq k' k = true := by
      intro k hk
      have hko : Has h other k = true := by
        rw [Has_eq_any, any_eq_iff]
        exact ⟨k, hk, hro k hk⟩
      rw [← hsame k, Has_eq_any, any_eq_iff] at hko
      exact hko
    have hl1 := matched_length_le _ _ (keysOf_distinct h s) hm1
    have hl2 := matched_length_le _ _ (keysOf_distinct h other) hm2
    have hl : ¬ (Len h s ≠ Len h other) := by
      simp only [Len]
      omega
    rw [if_neg hl, Equals.loop_eq_true, hsub]
    exact hm1

/-- The heap and the set that `Truncate` returns: a fresh, empty table. -/
theorem Truncate_eq [Comparable α] (h : Heap α) (s : SetVal) :
    Truncate h s
      = some ({ table := Function.update h.table h.next Table.empty, next := h.next + 1 },
          some h.next) := rfl

/-- After an `Add` to an allocated set, its table is the old table with the
    values written one after the other. -/
theorem Add_table [Comparable α] (a : Ref) (values : List α) :
    ∀ (h h1 : Heap α), Add h (some a) values = some h1 →
      h1.table a = values.foldl Table.put (h.table a) := by
  induction values with
  | nil =>
    intro h h1 ha
    simp only [Add, Add.loop, Option.some.injEq] at ha
    subst ha
    rfl
  | cons v vs ih =>
    intro h h1 ha
    have e : Add h (some a) (v :: vs) = Add (h.write a ((h.table a).put v)) (some a) vs := rfl
    rw [e] at ha
    rw [ih _ h1 ha, List.foldl_cons, Heap.table_write, if_pos rfl]

/-- One write adds at most one entry: none when the table has the value. -/
theorem Table.length_put [Comparable α] (t : Table α) (v : α) :
    (t.put v).keys.length = if t.has v = true then t.keys.length else t.keys.length + 1 := by
  unfold Table.put
  by_cases h : t.has v = true
  · rw [dif_pos h, if_pos h]
    simp
  · rw [dif_neg h, if_neg h]
    simp

/-- Writing a list of values adds at most one entry per value, and exactly one per
    value when the values are pairwise unequal and new to the table. -/
theorem Table.length_foldl_put [Comparable α] (values : List α) :
    ∀ t : Table α,
      (values.foldl Table.put t).keys.length ≤ t.keys.length + values.length
        ∧ ((values.foldl Table.put t).keys.length = t.keys.length + values.length
            ↔ values.Pairwise (fun x y => Comparable.eq x y = false)
                ∧ ∀ v ∈ values, t.has v = false) := by
  induction values with
  | nil => intro t; simp
  | cons v vs ih =>
    intro t
    obtain ⟨hle, heq⟩ := ih (t.put v)
    rw [List.foldl_cons]
    have hlen := Table.length_put t v
    by_cases hv : t.has v = true
    · rw [if_pos hv] at hlen
      rw [hlen] at hle heq
      simp only [List.length_cons]
      refine ⟨by omega, ?_⟩
      constructor
      · intro e
        omega
      · rintro ⟨_, hall⟩
        have := hall v (List.mem_cons_self v vs)
        rw [hv] at this
        cases this
    · rw [if_neg hv] at hlen
      rw [hlen] at hle heq
      simp only [List.length_cons]
      refine ⟨by omega, ?_⟩
      have hv' : t.has v = false := by simpa using hv
      have hput : ∀ w, (t.put v).has w = false
          ↔ t.has w = false ∧ Comparable.eq v w = false := by
        intro w
        rw [← Bool.not_eq_true, Table.has_put, not_or, Bool.not_eq_true, Bool.not_eq_true]
      constructor
      · intro e
        obtain ⟨hp, hall⟩ := heq.mp (by omega)
        refine ⟨List.pairwise_cons.mpr ⟨fun w hw => ((hput w).mp (hall w hw)).2, hp⟩, ?_⟩
        intro w hw
        rcases List.mem_cons.mp hw with e1 | hw'
        · rw [e1]; exact hv'
        · exact ((hput w).mp (hall w hw')).1
      · rintro ⟨hp, hall⟩
        obtain ⟨hp1, hp2⟩ := List.pairwise_cons.mp hp
        have := heq.mpr ⟨hp2, fun w hw =>
          (hput w).mpr ⟨hall w (List.mem_cons_of_mem v hw), hp1 w hw⟩⟩
        omega

/-- With a func that is not nil the loop of `Map` returns the images, in order. -/
theorem Map.loop_some (g : α → α) (vs : List α) :
    ∀ values : List α, Map.loop (some g) vs values = some (values ++ vs.map g) := by
  induction vs with
  | nil => intro values; simp [Map.loop]
  | cons v rest ih =>
    intro values
    have e : Map.loop (some g) (v :: rest) values = Map.loop (some g) rest (values ++ [g v]) :=
      rfl
    rw [e, ih]
    simp

/-- With a func that is not nil `Map` returns; the variable `*s` then denotes a
    fresh table into which the images of the values were written one after the
    other. -/
theorem Map_eq [Comparable α] (it : IterOrder α) (h : Heap α) (s : SetVal) (f : α → α) :
    ∃ h2, Map it h s (some f) = some (h2, some h.next)
      ∧ Add { table := Function.update h.table h.next Table.empty, next := h.next + 1 }
          (some h.next) ((Values it h s).map f) = some h2 := by
  cases ha : Add { table := Function.update h.table h.next Table.empty, next := h.next + 1 }
      (some h.next) ((Values it h s).map f) with
  | none =>
    have := (Add_returns (some h.next) ((Values it h s).map f) _).mp ha
    exact absurd this.1 (by simp)
  | some h2 =>
    refine ⟨h2, ?_, rfl⟩
    unfold Map
    rw [Map.loop_some, Truncate_eq]
    simp only [List.nil_append, ha]

/-- A key that is equal to itself is a value of the set that stores it. -/
theorem Has_of_mem_keysOf [Comparable α] (h : Heap α) (s : SetVal) (k : α)
    (hk : k ∈ h.keysOf s) (hrefl : Comparable.eq k k = true) : Has h s k = true := by
  rw [Has_eq_any, any_eq_iff]
  exact ⟨k, hk, hrefl⟩

/-- `Merge` returns unless the receiver is the nil set and some other is not
    empty. -/
theorem Merge_returns [Comparable α] (it : IterOrder α) (h : Heap α) (s : SetVal)
    (others : List SetVal) (hs : s ≠ none ∨ ∀ o ∈ others, Len h o = 0) :
    ∃ h1, Merge it h s others = some h1 := by
  cases s with
  | some a => exact Merge_returns_of_allocated it a others h
  | none =>
    rcases hs with hs | hs
    · exact absurd rfl hs
    · exact ⟨h, (Merge_nil it others h).2 hs⟩

/-- `Diff` returns unless the first other is the nil set and some later other is
    not empty. -/
theorem Diff_returns [Comparable α] (it : IterOrder α) (h : Heap α) (s : SetVal)
    (others : List SetVal)
    (hok : ∀ rest, others = none :: rest → ∀ o ∈ rest, Len h o = 0) :
    ∃ h2, Diff it h s others = some h2 := by
  cases others with
  | nil => exact ⟨h, rfl⟩
  | cons o0 rest =>
    cases hd : Diff it h s (o0 :: rest) with
    | some h2 => exact ⟨h2, rfl⟩
    | none =>
      exfalso
      have hm := (Diff_cons it h s o0 rest).1.mp hd
      have hret : ∃ h1, Merge it h o0 rest = some h1 := by
        apply Merge_returns
        cases o0 with
        | some a => exact Or.inl (by simp)
        | none => exact Or.inr (hok rest rfl)
      obtain ⟨h1, e⟩ := hret
      rw [e] at hm
      cases hm

/-! ### Claims -/

/-- C4 (evaluation at the failing input): with `s := Make(1, 2, 3, 4, 5)` and the
    nil set `var n Set[int]`, the call `s.Diff(n, Set[int]{5: {}})` panics,
    whatever the iteration order: `Diff` merges the later others into `others[0]`,
    here an assignment to an entry of the nil map.  With the same two others in
    the other order, `s.Diff(Set[int]{5: {}}, n)`, the call returns, and `s` has
    lost 5 and kept 4. -/
theorem Diff_panics_on_nil_first_other (it : IterOrder Nat) :
    Diff it diffTestHeap (some 0) [none, some 2] = none
      ∧ ∃ h2, Diff it diffTestHeap (some 0) [some 2, none] = some h2
          ∧ Has h2 (some 0) 5 = false ∧ Has h2 (some 0) 4 = true := by
  constructor
  · exact (Diff_cons it diffTestHeap (some 0) none [some 2]).1.mpr
      ((Merge_nil it [some 2] diffTestHeap).1.mpr ⟨some 2, by simp, by decide⟩)
  · obtain ⟨h2, hd⟩ := Diff_returns it diffTestHeap (some 0) [some 2, none]
      (fun rest e => by simp at e)
    refine ⟨h2, hd, ?_, ?_⟩
    · rw [← Bool.not_eq_true, Has_Diff_self it diffTestHeap h2 (some 0) _ hd 5]
      rintro ⟨_, hall⟩
      have := hall (some 2) (by simp)
      revert this
      decide
    · rw [Has_Diff_self it diffTestHeap h2 (some 0) _ hd 4]
      exact ⟨by decide, by decide⟩

/-- C5: `s.Intersect(others...)` returns; with at least one other, `s` still
    denotes the same table and a value `v` is in `s` iff it was in `s` before the
    call and is in every one of the others; with zero others `s` becomes empty,
    whereas `s.Diff()` with zero others changes nothing. -/
theorem Intersect_keeps_values_common_to_others [Comparable α] (it : IterOrder α)
    (h : Heap α) (s : SetVal) (others : List SetVal) (v : α) :
    (others ≠ [] →
        ∃ h2, Intersect it h s others = some (h2, s)
          ∧ (Has h2 s v = true ↔ Has h s v = true ∧ ∀ o ∈ others, Has h o v = true))
      ∧ (∃ h2 s2, Intersect it h s [] = some (h2, s2)
          ∧ Has h2 s2 v = false ∧ Len h2 s2 = 0)
      ∧ Diff it h s [] = some h := by
  refine ⟨?_, ?_, rfl⟩
  · intro hne
    have hlen : ¬ others.length = 0 := by
      simpa [List.length_eq_zero] using hne
    unfold Intersect
    rw [if_neg hlen]
    refine ⟨_, rfl, ?_⟩
    rw [Has_Intersect_loop, any_Values]
    constructor
    · rintro ⟨h1, h2⟩
      refine ⟨h1, fun o ho => ?_⟩
      by_contra hc
      exact h2 ⟨rfl, h1, o, ho, by simpa using hc⟩
    · rintro ⟨h1, h2⟩
      refine ⟨h1, ?_⟩
      rintro ⟨_, _, o, ho, hc⟩
      rw [h2 o ho] at hc
      cases hc
  · have e : Intersect it h s [] = Truncate h s := rfl
    rw [e, Truncate_eq]
    refine ⟨_, _, rfl, ?_, ?_⟩
    · simp [Has, Table.has, Table.empty]
    · simp [Len, Heap.keysOf, Table.empty]

/-- C5 (witness): TestSet_Intersect,
    `Make(1,2,3,4,5).Intersect(Make(1,2,3,4), Make(1,2,3,5))`, returns and
    keeps 1. -/
theorem Intersect_keeps_values_common_to_others_witness :
    ([some 1, some 2] : List SetVal) ≠ []
      ∧ ∃ h2, Intersect (IterOrder.asStored Nat) intersectTestHeap (some 0) [some 1, some 2]
            = some (h2, some 0)
          ∧ Has h2 (some 0) 1 = true := by
  refine ⟨by decide, ?_⟩
  obtain ⟨h2, e, hiff⟩ :=
    (Intersect_keeps_values_common_to_others (IterOrder.asStored Nat) intersectTestHeap
      (some 0) [some 1, some 2] 1).1 (by decide)
  exact ⟨h2, e, hiff.mpr ⟨by decide, by decide⟩⟩

/-- C6 (counterexample): for the float64 set `s = Make(math.NaN())` the call
    `s.Equals(s)` returns false, although `s` has exactly the same elements as
    itself: `Equals` asks `s.Has(NaN)`, and NaN is equal to no key. -/
theorem Equals_false_on_NaN_set :
    ¬ (Equals (IterOrder.asStored Float64Key) floatTestHeap (some 0) (some 0) = true
        ↔ ∀ v, Has floatTestHeap (some 0) v = Has floatTestHeap (some 0) v) := by
  intro hiff
  have ht := hiff.mpr (fun _ => rfl)
  revert ht
  decide

/-- C6 (amended): `s.Equals(other)` returns true iff `s` and `other` have exactly
    the same elements (`s.Has(v) = other.Has(v)` for every `v`) and neither holds
    an element that is not equal to itself (a float NaN); so on sets without such
    an element it returns true iff they have exactly the same elements.  `Equals`
    is symmetric on all sets, whatever order the two calls iterate in. -/
theorem Equals_iff_same_elements [Comparable α] (it it2 : IterOrder α) (h : Heap α)
    (s other : SetVal) :
    (Equals it h s other = true
        ↔ (∀ v, Has h s v = Has h other v)
          ∧ (∀ k ∈ h.keysOf s, Comparable.eq k k = true)
          ∧ (∀ k ∈ h.keysOf other, Comparable.eq k k = true))
      ∧ ((∀ k ∈ h.keysOf s, Comparable.eq k k = true) →
          (∀ k ∈ h.keysOf other, Comparable.eq k k = true) →
          (Equals it h s other = true ↔ ∀ v, Has h s v = Has h other v))
      ∧ Equals it h s other = Equals it2 h other s := by
  refine ⟨Equals_iff it h s other, ?_, ?_⟩
  · intro h1 h2
    rw [Equals_iff]
    exact ⟨fun hall => hall.1, fun hv => ⟨hv, h1, h2⟩⟩
  · rw [Bool.eq_iff_iff, Equals_iff it h s other, Equals_iff it2 h other s]
    exact ⟨fun ⟨hv, h1, h2⟩ => ⟨fun v => (hv v).symm, h2, h1⟩,
      fun ⟨hv, h1, h2⟩ => ⟨fun v => (hv v).symm, h2, h1⟩⟩

/-- C7 (counterexample): with the nil set `var s Set[int]` the call
    `s.Merge(Set[int]{4: {}})` panics (assignment to an entry of the nil map), so
    there is no `s` after the call. -/
theorem Merge_into_nil_set_panics :
    Merge (IterOrder.asStored Nat) diffTestHeap none [some 1] = none :=
  (Merge_nil (IterOrder.asStored Nat) [some 1] diffTestHeap).1.mpr
    ⟨some 1, by simp, by decide⟩

/-- C7 (amended): for every set `s` that is not nil, and for the nil set when
    every other is empty, `s.Merge(others...)` returns, and afterwards a value `v`
    is in `s` iff it was in `s` before the call or is in at least one of the
    others (also when `s` is one of them); with zero others nothing changes. -/
theorem Merge_is_union [Comparable α] (it : IterOrder α) (h : Heap α) (s : SetVal)
    (others : List SetVal) (v : α)
    (hs : s ≠ none ∨ ∀ o ∈ others, Len h o = 0) :
    (∃ h1, Merge it h s others = some h1
        ∧ (Has h1 s v = true ↔ Has h s v = true ∨ ∃ o ∈ others, Has h o v = true))
      ∧ Merge it h s [] = some h := by
  refine ⟨?_, rfl⟩
  obtain ⟨h1, hm⟩ := Merge_returns it h s others hs
  refine ⟨h1, hm, ?_⟩
  rw [Has_Merge it s others h h1 hm]
  simp

/-- C7 (witness): `Set[int]{4: {}}.Merge(Set[int]{5: {}})` returns, and the
    receiver then holds 5. -/
theorem Merge_is_union_witness :
    ((some 1 : SetVal) ≠ none ∨ ∀ o ∈ [(some 2 : SetVal)], Len diffTestHeap o = 0)
      ∧ ∃ h1, Merge (IterOrder.asStored Nat) diffTestHeap (some 1) [some 2] = some h1
          ∧ Has h1 (some 1) 5 = true := by
  refine ⟨Or.inl (by decide), ?_⟩
  obtain ⟨h1, e, hiff⟩ :=
    (Merge_is_union (IterOrder.asStored Nat) diffTestHeap (some 1) [some 2] 5
      (Or.inl (by decide))).1
  exact ⟨h1, e, hiff.mpr (Or.inr ⟨some 2, by simp, by decide⟩)⟩

/-- C8 (counterexample): on float64 sets, after `s := Make(math.NaN())` and
    `s.Map(func(float64) float64 { return 1 })` the value 1 is in `s`, although
    before the call `s.Has(u)` was false for every `u`; after `s := Make(0)` and
    `s.Map(zeroSignTransform)` the value 7 is not in `s`, although the negative
    zero was in `s` before the call (`s.Has(-0)`) and `zeroSignTransform(-0)`
    is 7.  And with the nil func, `Make(1, 2, 3).Map(nil)` panics. -/
theorem Map_image_fails_on_float_keys :
    (∃ h2 s2,
        Map (IterOrder.asStored Float64Key) floatTestHeap (some 0)
            (some (fun _ => Float64Key.whole 1)) = some (h2, s2)
          ∧ Has h2 s2 (Float64Key.whole 1) = true
          ∧ ∀ u, Has floatTestHeap (some 0) u = false)
      ∧ (∃ h2 s2,
          Map (IterOrder.asStored Float64Key) floatTestHeap (some 2)
              (some zeroSignTransform) = some (h2, s2)
            ∧ Has floatTestHeap (some 2) Float64Key.negZero = true
            ∧ zeroSignTransform Float64Key.negZero = Float64Key.whole 7
            ∧ Has h2 s2 (Float64Key.whole 7) = false)
      ∧ Map (IterOrder.asStored Nat) mapTestHeap (some 0) none = none := by
  refine ⟨⟨_, _, rfl, by decide, ?_⟩, ⟨_, _, rfl, by decide, rfl, by decide⟩, rfl⟩
  intro u
  have e : Has floatTestHeap (some 0) u = (Comparable.eq Float64Key.nan u || false) := rfl
  rw [e]
  rfl

/-- C8 (amended): for every set `s` that holds no element unequal to itself (no
    float NaN) and every `f` that is not nil and gives one result on equal
    arguments (every `f` but nil when `==` is identity, as on integers and
    strings), `s.Map(f)` returns, and
    afterwards `s` is exactly the image of the original `s` under `f` (`v` is in
    `s` iff `v == f(u)` for some `u` originally in `s`); its length is at most the
    original length, with equality iff `f` is injective on the original
    elements. -/
theorem Map_is_image [Comparable α] (it : IterOrder α) (h : Heap α) (s : SetVal)
    (f : α → α)
    (hs : ∀ k ∈ h.keysOf s, Comparable.eq k k = true)
    (hf : ∀ a b, Comparable.eq a b = true → f a = f b) :
    ∃ h2 s2, Map it h s (some f) = some (h2, s2)
      ∧ (∀ v, Has h2 s2 v = true ↔ ∃ u, Has h s u = true ∧ Comparable.eq (f u) v = true)
      ∧ Len h2 s2 ≤ Len h s
      ∧ (Len h2 s2 = Len h s
        ↔ ∀ u₁ u₂, Has h s u₁ = true → Has h s u₂ = true →
            Comparable.eq (f u₁) (f u₂) = true → Comparable.eq u₁ u₂ = true) := by
  obtain ⟨h2, hmap, hadd⟩ := Map_eq it h s f
  have htab := Add_table h.next ((Values it h s).map f) _ h2 hadd
  have hfresh : (Function.update h.table h.next Table.empty) h.next = (Table.empty : Table α) :=
    Function.update_same _ _ _
  simp only [hfresh] at htab
  have hlen2 : Len h2 (some h.next)
      = ((List.map f (Values it h s)).foldl Table.put (Table.empty : Table α)).keys.length := by
    unfold Len Heap.keysOf
    simp only [htab]
  have hlens : Len h s = (List.map f (Values it h s)).length := by
    rw [List.length_map, Values_eq, (it.perm _).length_eq]
    rfl
  obtain ⟨hle, heq⟩ := Table.length_foldl_put (List.map f (Values it h s)) (Table.empty : Table α)
  have hzero : (Table.empty : Table α).keys.length = 0 := rfl
  rw [hzero, Nat.zero_add] at hle heq
  refine ⟨h2, some h.next, hmap, ?_, ?_, ?_⟩
  · intro v
    rw [Has_Add (some h.next) _ _ h2 hadd (some h.next) v]
    have hnew : ∀ n : Ref,
        Has (⟨Function.update h.table h.next Table.empty, n⟩ : Heap α) (some h.next) v
          = false := by
      intro n
      simp [Has, Table.has, Table.empty]
    rw [hnew, any_eq_iff]
    simp only [Bool.false_eq_true, false_or, true_and, List.mem_map,
      exists_exists_and_eq_and, Values_eq, (it.perm _).mem_iff]
    constructor
    · rintro ⟨k, hk, e⟩
      exact ⟨k, Has_of_mem_keysOf h s k hk (hs k hk), e⟩
    · rintro ⟨u, hu, e⟩
      rw [Has_eq_any, any_eq_iff] at hu
      obtain ⟨k, hk, hku⟩ := hu
      exact ⟨k, hk, by rw [hf k u hku]; exact e⟩
  · rw [hlen2, hlens]
    exact hle
  · rw [hlen2, hlens, heq]
    have hemp : ∀ v ∈ List.map f (Values it h s), (Table.empty : Table α).has v = false :=
      fun _ _ => rfl
    rw [and_iff_left hemp]
    rw [List.pairwise_map, Values_eq]
    have hsymm : Symmetric (fun a b : α => Comparable.eq (f a) (f b) = false) := by
      intro a b hab
      cases hba : Comparable.eq (f b) (f a) with
      | false => rfl
      | true =>
        have := Comparable.symm _ _ hba
        rw [this] at hab
        cases hab
    rw [(it.perm _).pairwise_iff (fun hxy => hsymm hxy)]
    constructor
    · intro hp u₁ u₂ h1 h2' e
      rw [Has_eq_any, any_eq_iff] at h1 h2'
      obtain ⟨k₁, hk₁, e₁⟩ := h1
      obtain ⟨k₂, hk₂, e₂⟩ := h2'
      have hkk : k₁ = k₂ := by
        by_contra hne
        have := hp.forall hsymm hk₁ hk₂ hne
        rw [hf k₁ u₁ e₁, hf k₂ u₂ e₂, e] at this
        cases this
      subst hkk
      exact Comparable.trans _ _ _ (Comparable.symm _ _ e₁) e₂
    · intro hinj
      have hd := keysOf_distinct h s
      refine hd.imp_of_mem ?_
      intro a b ha hb hab
      cases hfab : Comparable.eq (f a) (f b) with
      | false => exact hfab
      | true =>
        have := hinj a b (Has_of_mem_keysOf h s a ha (hs a ha))
          (Has_of_mem_keysOf h s b hb (hs b hb)) hfab
        rw [this] at hab
        cases hab

/-- C8 (witness): TestSet_Map, `Make(1, 2, 3).Map(func(i int) int { return i + 1 })`
    returns, and the set then holds 4. -/
theorem Map_is_image_witness :
    (∀ k ∈ mapTestHeap.keysOf (some 0), Comparable.eq k k = true)
      ∧ (∀ a b : Nat, Comparable.eq a b = true → a + 1 = b + 1)
      ∧ ∃ h2 s2, Map (IterOrder.asStored Nat) mapTestHeap (some 0) (some (fun i => i + 1))
            = some (h2, s2)
          ∧ Has h2 s2 4 = true := by
  have hs : ∀ k ∈ mapTestHeap.keysOf (some 0), Comparable.eq k k = true := by decide
  have hf : ∀ a b : Nat, Comparable.eq a b = true → a + 1 = b + 1 := by
    intro a b hab
    have : a = b := of_decide_eq_true hab
    rw [this]
  refine ⟨hs, hf, ?_⟩
  obtain ⟨h2, s2, e, hiff, _⟩ :=
    Map_is_image (IterOrder.asStored Nat) mapTestHeap (some 0) (fun i => i + 1) hs hf
  exact ⟨h2, s2, e, (hiff 4).mpr ⟨3, by decide, by decide⟩⟩

/-- C23 (evaluation at the failing input): in TestSet_Diff,
    `Make(1,2,3,4,5).Diff({4}, {5})`, the call returns; the first other `{4}` does
    not hold 5 before the call and holds 5 after it, whatever the iteration
    order: `Diff` has merged the second other into the first. -/
theorem Diff_merges_into_first_other (it : IterOrder Nat) :
    Has diffTestHeap (some 1) 5 = false
      ∧ ∃ h2, Diff it diffTestHeap (some 0) [some 1, some 2] = some h2
          ∧ Has h2 (some 1) 5 = true := by
  refine ⟨by decide, ?_⟩
  obtain ⟨h2, hd⟩ := Diff_returns it diffTestHeap (some 0) [some 1, some 2]
    (fun rest e => by simp at e)
  refine ⟨h2, hd, ?_⟩
  rw [Has_Diff_other it diffTestHeap h2 (some 0) (some 1) [some 2] hd (some 1) (by decide) 5]
  exact Or.inr ⟨rfl, some 2, by simp, by decide⟩

/-! ### Further properties -/

/-- When `s.Diff(others...)` with at least one other returns, the first other holds
    what all the others held before the call (when it is not `s` itself), and
    every set that is neither `s` nor the first other holds what it held
    before. -/
theorem Diff_frame [Comparable α] (it : IterOrder α) (h h2 : Heap α) (s o0 : SetVal)
    (rest : List SetVal) (w : α) (hd : Diff it h s (o0 :: rest) = some h2) :
    (o0 ≠ s → (Has h2 o0 w = true ↔ ∃ o ∈ o0 :: rest, Has h o w = true))
      ∧ ∀ r : SetVal, r ≠ s → r ≠ o0 → (Has h2 r w = Has h r w) := by
  constructor
  · intro hne
    rw [Has_Diff_other it h h2 s o0 rest hd o0 hne w]
    simp only [true_and, List.mem_cons, exists_eq_or_imp]
  · intro r hrs hro
    rw [Bool.eq_iff_iff, Has_Diff_other it h h2 s o0 rest hd r hrs w]
    simp [hro]

/-- In TestSet_Diff the set `{5}`, the second other, is as before the call, and
    the first other holds 4 and 5. -/
theorem Diff_frame_witness :
    ∃ h2, Diff (IterOrder.asStored Nat) diffTestHeap (some 0) [some 1, some 2] = some h2
      ∧ (some 1 : SetVal) ≠ some 0
      ∧ Has h2 (some 1) 5 = true
      ∧ Has h2 (some 2) 4 = Has diffTestHeap (some 2) 4 := by
  obtain ⟨h2, hd⟩ := Diff_returns (IterOrder.asStored Nat) diffTestHeap (some 0)
    [some 1, some 2] (fun rest e => by simp at e)
  exact ⟨h2, hd, by decide,
    ((Diff_frame (IterOrder.asStored Nat) diffTestHeap h2 (some 0) (some 1) [some 2] 5
      hd).1 (by decide)).mpr ⟨some 2, by simp, by decide⟩,
    (Diff_frame (IterOrder.asStored Nat) diffTestHeap h2 (some 0) (some 1) [some 2] 4
      hd).2 (some 2) (by decide) (by decide)⟩

/-- For every set `s` and every list of sets `others` whose first set is not nil,
    or whose later sets are all empty, `s.Diff(others...)` returns, and afterwards
    a value `v` is in `s` iff it was in `s` before the call and was in none of the
    others; when the others are distinct from `s` the same holds with the others
    read after the call. -/
theorem Diff_keeps_values_absent_from_others [Comparable α] (it : IterOrder α)
    (h : Heap α) (s : SetVal) (others : List SetVal) (v : α)
    (hok : ∀ rest, others = none :: rest → ∀ o ∈ rest, Len h o = 0) :
    ∃ h2, Diff it h s others = some h2
      ∧ (Has h2 s v = true ↔ Has h s v = true ∧ ∀ o ∈ others, Has h o v = false)
      ∧ (s ∉ others →
          (Has h2 s v = true ↔ Has h s v = true ∧ ∀ o ∈ others, Has h2 o v = false)) := by
  obtain ⟨h2, hd⟩ := Diff_returns it h s others hok
  refine ⟨h2, hd, Has_Diff_self it h h2 s others hd v, ?_⟩
  intro hs
  rw [Has_Diff_self it h h2 s others hd v]
  cases others with
  | nil => simp
  | cons o0 rest =>
    have hne : ∀ o ∈ o0 :: rest, o ≠ s := fun o ho e => hs (e ▸ ho)
    have hpost : (∀ o ∈ o0 :: rest, Has h2 o v = false)
        ↔ ∀ o ∈ o0 :: rest, Has h o v = false := by
      constructor
      · intro hall o ho
        have h0 := hall o0 (List.mem_cons_self o0 rest)
        rw [← Bool.not_eq_true, Has_Diff_other it h h2 s o0 rest hd o0
          (hne o0 (List.mem_cons_self o0 rest))] at h0
        rw [← Bool.not_eq_true]
        intro hc
        rcases List.mem_cons.mp ho with e | hmem
        · exact h0 (Or.inl (e ▸ hc))
        · exact h0 (Or.inr ⟨rfl, o, hmem, hc⟩)
      · intro hall o ho
        rw [← Bool.not_eq_true, Has_Diff_other it h h2 s o0 rest hd o (hne o ho)]
        rintro (hc | ⟨_, o', ho', hc⟩)
        · have := hall o ho
          rw [hc] at this
          cases this
        · have := hall o' (List.mem_cons_of_mem o0 ho')
          rw [hc] at this
          cases this
    rw [hpost]

/-- TestSet_Diff, `Make(1,2,3,4,5).Diff({4}, {5})`: the call returns, and 1
    stays in the receiver. -/
theorem Diff_keeps_values_absent_from_others_witness :
    (∀ rest, [(some 1 : SetVal), some 2] = none :: rest →
        ∀ o ∈ rest, Len diffTestHeap o = 0)
      ∧ ∃ h2, Diff (IterOrder.asStored Nat) diffTestHeap (some 0) [some 1, some 2] = some h2
          ∧ Has h2 (some 0) 1 = true := by
  have hok : ∀ rest, [(some 1 : SetVal), some 2] = none :: rest →
      ∀ o ∈ rest, Len diffTestHeap o = 0 := fun rest e => by simp at e
  refine ⟨hok, ?_⟩
  obtain ⟨h2, e, hiff, _⟩ :=
    Diff_keeps_values_absent_from_others (IterOrder.asStored Nat) diffTestHeap (some 0)
      [some 1, some 2] 1 hok
  exact ⟨h2, e, hiff.mpr ⟨by decide, by decide⟩⟩

end sets
